import Mathlib

/-!
# hft_system.cpp: bounded ring-buffer queue and momentum strategy

A shallow embedding of `src/hft_system.cpp`.

* `LockFreeQueue T Size` is the ring buffer of lines 70-98, executed by one
  caller at a time (a sequential model: the atomic loads and stores are plain
  reads and writes of the two cursors).  The cursors are natural numbers; for a
  cursor below `Size` the sum `cursor + 1` cannot exceed the range of `size_t`.
  An access `buffer_[i]` with `i` outside the array, and `% Size` with
  `Size = 0`, have no defined result: the operation returns `none` there.
* `StrategyComponent` is the consumer of lines 148-216.  Prices, timestamps and
  the threshold are rationals; the result of the one division is a `FVal`,
  which keeps the non-finite results apart from the finite ones.
  `StrategyComponent.on_price_update` computes the momentum of line 193 with
  the exact quotient `fdiv`, without rounding or overflow: it serves the
  properties that do not depend on the value the division rounds to.
* `StrategyComponent.on_price_update_fp` is the same method with the arithmetic
  of line 193 as a parameter, and `doubleMomentum` is that arithmetic for IEEE
  754 doubles (round to nearest, ties to even, overflow to an infinity), the
  prices being the rationals that the doubles stand for.  The trade decision
  is stated on it.
* `Config.parse_args` is the option loop of lines 31-41.  A string is its
  sequence of characters, one for each byte of the argument; the conversions
  `std::stod` and `std::stoul` are parameters.
-/

namespace HFT

/-! ## LockFreeQueue (lines 70-98) -/

/-- The class `LockFreeQueue<T, Size>`: `Size` slots and the two cursors. -/
structure LockFreeQueue (T : Type) (Size : Nat) where
  buffer_ : Fin Size → T
  head_ : Nat
  tail_ : Nat

namespace LockFreeQueue

variable {T : Type} {Size : Nat}

/-- A freshly constructed queue: both cursors are 0 (lines 74-75); `init` is
the content of the default-constructed array. -/
def fresh (init : Fin Size → T) : LockFreeQueue T Size :=
  { buffer_ := init, head_ := 0, tail_ := 0 }

/-- The method `LockFreeQueue::push` (lines 78-87).  The result is the returned `bool`
and the queue after the call. -/
def push (q : LockFreeQueue T Size) (item : T) : Option (Bool × LockFreeQueue T Size) :=
  if Size = 0 then none
  else
    let current_tail := q.tail_
    let next_tail := (current_tail + 1) % Size
    if next_tail = q.head_ then
      some (false, q)
    else if h : current_tail < Size then
      some (true, { buffer_ := Function.update q.buffer_ ⟨current_tail, h⟩ item,
                    head_ := q.head_,
                    tail_ := next_tail })
    else none

/-- The method `LockFreeQueue::pop` (lines 89-97).  `item` is the value of the output
parameter before the call; the result is the returned `bool`, the value of the
output parameter after the call, and the queue after the call. -/
def pop (q : LockFreeQueue T Size) (item : T) : Option (Bool × T × LockFreeQueue T Size) :=
  let current_head := q.head_
  if current_head = q.tail_ then
    some (false, item, q)
  else if h : current_head < Size then
    some (true, q.buffer_ ⟨current_head, h⟩,
          { buffer_ := q.buffer_, head_ := (current_head + 1) % Size, tail_ := q.tail_ })
  else none

end LockFreeQueue

/-- One call made on the queue: a push of an item, or a pop into an output
parameter that holds `slot` before the call. -/
inductive Op (T : Type) where
  | push (item : T)
  | pop (slot : T)

/-- What a call gave back: the `bool` of a push, or the `bool` of a pop with
the value of its output parameter after the call. -/
inductive Res (T : Type) where
  | pushed (ok : Bool)
  | popped (ok : Bool) (item : T)
  deriving DecidableEq

namespace LockFreeQueue

variable {T : Type} {Size : Nat}

/-- One call on the queue. -/
def step (q : LockFreeQueue T Size) : Op T → Option (Res T × LockFreeQueue T Size)
  | Op.push item => (q.push item).map (fun r => (Res.pushed r.1, r.2))
  | Op.pop slot => (q.pop slot).map (fun r => (Res.popped r.1 r.2.1, r.2.2))

/-- The calls of `ops` applied one after another; the results in call order
and the final queue. -/
def run (q : LockFreeQueue T Size) : List (Op T) → Option (List (Res T) × LockFreeQueue T Size)
  | [] => some ([], q)
  | op :: ops =>
    match q.step op with
    | none => none
    | some (r, q1) =>
      match run q1 ops with
      | none => none
      | some (rs, q2) => some (r :: rs, q2)

/-- The unread items, oldest first: the slots from `head_` up to `tail_`,
going round the array. -/
def contents (q : LockFreeQueue T Size) : List T :=
  if h : 0 < Size then
    (List.range ((q.tail_ + Size - q.head_) % Size)).map
      (fun i => q.buffer_ ⟨(q.head_ + i) % Size, Nat.mod_lt _ h⟩)
  else []

end LockFreeQueue

/-! ## The list-based FIFO the queue is compared with -/

/-- The reference FIFO follows the words of the specification: a list of at
most `cap` items; push appends and returns true unless the list already holds
`cap` items. -/
def fifoPush {T : Type} (cap : Nat) (l : List T) (item : T) : Bool × List T :=
  if l.length < cap then (true, l ++ [item]) else (false, l)

/-- The reference pop removes and returns the front unless the list is empty. -/
def fifoPop {T : Type} (l : List T) (slot : T) : Bool × T × List T :=
  match l with
  | [] => (false, slot, [])
  | x :: rest => (true, x, rest)

/-- One call on the reference FIFO. -/
def fifoStep {T : Type} (cap : Nat) (l : List T) : Op T → Res T × List T
  | Op.push item => (Res.pushed (fifoPush cap l item).1, (fifoPush cap l item).2)
  | Op.pop slot => (Res.popped (fifoPop l slot).1 (fifoPop l slot).2.1, (fifoPop l slot).2.2)

/-- The calls of `ops` applied one after another to the reference FIFO. -/
def fifoRun {T : Type} (cap : Nat) (l : List T) : List (Op T) → List (Res T) × List T
  | [] => ([], l)
  | op :: ops =>
    ((fifoStep cap l op).1 :: (fifoRun cap (fifoStep cap l op).2 ops).1,
     (fifoRun cap (fifoStep cap l op).2 ops).2)

/-- The items whose push returned true, in call order. -/
def accepted {T : Type} : List (Op T) → List (Res T) → List T
  | Op.push item :: ops, Res.pushed true :: rs => item :: accepted ops rs
  | _ :: ops, _ :: rs => accepted ops rs
  | _, _ => []

/-- The items returned by the pops that returned true, in call order. -/
def delivered {T : Type} : List (Res T) → List T
  | [] => []
  | Res.popped true item :: rs => item :: delivered rs
  | _ :: rs => delivered rs

/-! ## Configuration and the momentum strategy (lines 15-42, 148-216) -/

/-- The fields of `struct Config` (lines 16-23). -/
structure Config where
  symbol : String
  initial_price : ℚ
  price_history_size : Nat
  queue_size : Nat
  update_interval_ms : ℚ
  strategy_window : Nat
  strategy_threshold : ℚ
  log_file : String
  deriving DecidableEq

/-- The default member initialisers of `Config` (lines 16-23). -/
def Config.defaults : Config :=
  { symbol := "BTCUSD", initial_price := 100, price_history_size := 100, queue_size := 100,
    update_interval_ms := 5, strategy_window := 20, strategy_threshold := 5 / 1000,
    log_file := "hft_log.txt" }

/-- The defaults with `--window=2 --threshold=0.005`. -/
def Config.window2 : Config :=
  { Config.defaults with strategy_window := 2, strategy_threshold := 1 / 200 }

/-- The value of a quotient of two doubles in exact arithmetic: a finite
number, or one of the non-finite results of a division by zero. -/
inductive FVal where
  | fin (q : ℚ)
  | posInf
  | negInf
  | nan
  deriving DecidableEq

/-- The division `a / b` of line 193 in exact arithmetic: the exact quotient
when `b` is not zero, with no rounding and no overflow (`doubleDiv` is the
rounded division of doubles); dividing by zero gives an infinity with the sign
of `a`, and `0 / 0` is not a number. -/
def fdiv (a b : ℚ) : FVal :=
  if b = 0 then
    if 0 < a then FVal.posInf else if a < 0 then FVal.negInf else FVal.nan
  else FVal.fin (a / b)

/-- The comparison `m > t` of line 197; it is false for a value that is not a
number. -/
def FVal.gt : FVal → ℚ → Bool
  | FVal.fin q, t => decide (t < q)
  | FVal.posInf, _ => true
  | FVal.negInf, _ => false
  | FVal.nan, _ => false

/-- The comparison `m < t` of line 200; it is false for a value that is not a
number. -/
def FVal.lt : FVal → ℚ → Bool
  | FVal.fin q, t => decide (q < t)
  | FVal.posInf, _ => false
  | FVal.negInf, _ => true
  | FVal.nan, _ => false

/-- A call that `on_price_update` makes on the log: the momentum line of line
196 with the value it prints, or `execute_trade` with its three arguments. -/
inductive LogCall where
  | momentum (value : FVal)
  | trade (action : String) (price timestamp : ℚ)
  deriving DecidableEq

/-- The members of `StrategyComponent` that `on_price_update` reads and
writes (lines 150-153). `position_` is 0 (flat), 1 (long) or -1 (short). -/
structure StrategyComponent where
  config_ : Config
  price_history_ : List ℚ
  position_ : Int
  deriving DecidableEq

namespace StrategyComponent

/-- The constructor (lines 158-165): position 0 and a window filled with
`strategy_window` prices `initial_price + dist(rng)`; `draw i` is the `i`-th
sample of the normal distribution. -/
def new (config : Config) (draw : Nat → ℚ) : StrategyComponent :=
  { config_ := config,
    price_history_ := (List.range config.strategy_window).map
      (fun i => config.initial_price + draw i),
    position_ := 0 }

/-- Lines 186-189: the price is appended at the back, and the front is
removed once if the window then holds more than `strategy_window` prices. -/
def slide (window : Nat) (history : List ℚ) (price : ℚ) : List ℚ :=
  if (history ++ [price]).length > window then (history ++ [price]).tail
  else history ++ [price]

/-- The method `StrategyComponent::on_price_update` (lines 185-205): the component after
the call and the calls made on the log, in order.  `front()` and `back()` of an
empty vector have no defined result. -/
def on_price_update (s : StrategyComponent) (price timestamp : ℚ) :
    Option (StrategyComponent × List LogCall) :=
  let history := slide s.config_.strategy_window s.price_history_ price
  if history.length = s.config_.strategy_window then
    match history.head?, history.getLast? with
    | some front, some back =>
      let momentum := fdiv (back - front) front
      if momentum.gt s.config_.strategy_threshold = true ∧ s.position_ ≠ 1 then
        some ({ s with price_history_ := history, position_ := 1 },
              [LogCall.momentum momentum, LogCall.trade "BUY" price timestamp])
      else if momentum.lt (-s.config_.strategy_threshold) = true ∧ s.position_ ≠ -1 then
        some ({ s with price_history_ := history, position_ := -1 },
              [LogCall.momentum momentum, LogCall.trade "SELL" price timestamp])
      else
        some ({ s with price_history_ := history }, [LogCall.momentum momentum])
    | _, _ => none
  else
    some ({ s with price_history_ := history }, [])

/-- The ticks `(price, timestamp)` fed one by one through `on_price_update`:
the final component and, for each tick, the calls it made on the log. -/
def process (s : StrategyComponent) :
    List (ℚ × ℚ) → Option (StrategyComponent × List (List LogCall))
  | [] => some (s, [])
  | tick :: ticks =>
    match s.on_price_update tick.1 tick.2 with
    | none => none
    | some (s1, calls) =>
      match process s1 ticks with
      | none => none
      | some (s2, rest) => some (s2, calls :: rest)

end StrategyComponent

/-- The momentum over a full window of `window` prices, as lines 191-193
compute it: `(back - front) / front` when the list holds exactly `window`
prices and is not empty. -/
def window_momentum (window : Nat) (history : List ℚ) : Option FVal :=
  if history.length = window then
    match history.head?, history.getLast? with
    | some front, some back => some (fdiv (back - front) front)
    | _, _ => none
  else none

/-- The ticks of the window test: the prices `100, 101, ..., 100 + W - 1`, the
`i`-th with timestamp `ts i`. -/
def rampTicks (W : Nat) (ts : Nat → ℚ) : List (ℚ × ℚ) :=
  (List.range W).map (fun i : Nat => ((100 : ℚ) + (i : ℚ), ts i))

/-- The momentum values logged by a list of calls. -/
def momentumValues : List LogCall → List FVal
  | [] => []
  | LogCall.momentum v :: cs => v :: momentumValues cs
  | LogCall.trade _ _ _ :: cs => momentumValues cs

/-- The trade actions of a list of calls. -/
def tradeActions : List LogCall → List String
  | [] => []
  | LogCall.momentum _ :: cs => tradeActions cs
  | LogCall.trade action _ _ :: cs => action :: tradeActions cs

/-- The number of pushes that returned true. -/
def pushCount {T : Type} : List (Res T) → Nat
  | [] => 0
  | Res.pushed true :: rs => pushCount rs + 1
  | _ :: rs => pushCount rs

/-- The number of pops that returned true. -/
def popCount {T : Type} : List (Res T) → Nat
  | [] => 0
  | Res.popped true _ :: rs => popCount rs + 1
  | _ :: rs => popCount rs

namespace LockFreeQueue

variable {T : Type} {Size : Nat}

/-- Both cursors index a slot of the array. -/
def InBounds (q : LockFreeQueue T Size) : Prop :=
  q.head_ < Size ∧ q.tail_ < Size

end LockFreeQueue

/-! ## Text written to the log (lines 61-67, 207-211) -/

/-- A `std::ostringstream` as the program uses it: whether `std::fixed` has
been inserted, the precision, and the text written so far. -/
structure OStringStream where
  fixed : Bool
  precision : Nat
  text : String

namespace OStringStream

/-- A newly constructed stream: default notation, precision 6, no text. -/
def empty : OStringStream := { fixed := false, precision := 6, text := "" }

/-- The insertion `<< std::fixed`. -/
def setFixed (o : OStringStream) : OStringStream := { o with fixed := true }

/-- The insertion `<< std::setprecision(n)`. -/
def setprecision (o : OStringStream) (n : Nat) : OStringStream := { o with precision := n }

/-- The insertion of a string. -/
def putString (o : OStringStream) (t : String) : OStringStream := { o with text := o.text ++ t }

/-- The insertion of a `double`; `fmt fixed precision x` is the text the
standard library writes for `x` under the stream's notation and precision. -/
def putDouble (fmt : Bool → Nat → ℚ → String) (o : OStringStream) (x : ℚ) : OStringStream :=
  { o with text := o.text ++ fmt o.fixed o.precision x }

/-- The member `str()`. -/
def str (o : OStringStream) : String := o.text

end OStringStream

/-- The method `StrategyComponent::execute_trade` (lines 207-211): the text handed to
`logger_.log`. -/
def StrategyComponent.execute_trade (fmt : Bool → Nat → ℚ → String) (s : StrategyComponent)
    (action : String) (price timestamp : ℚ) : String :=
  let oss := OStringStream.empty
  let oss := oss.setFixed
  let oss := oss.setprecision 2
  let oss := oss.putDouble fmt timestamp
  let oss := oss.putString ": "
  let oss := oss.putString action
  let oss := oss.putString " "
  let oss := oss.putString s.config_.symbol
  let oss := oss.putString " at "
  let oss := oss.putDouble fmt price
  oss.str

/-- The method `Logger::log` (lines 61-67): the line written to the file and to the
standard output, `now` being the clock reading divided by `1e6`. -/
def Logger.log (fmt : Bool → Nat → ℚ → String) (now : ℚ) (message : String) : String :=
  let file := OStringStream.empty
  let file := file.setFixed
  let file := file.setprecision 6
  let file := file.putDouble fmt now
  let file := file.putString ": "
  let file := file.putString message
  let file := file.putString "\n"
  file.str

/-- Fixed notation with `prec` decimals of an exact rational, rounded to the
nearest, ties to even. -/
def fixedText (prec : Nat) (x : ℚ) : String :=
  let scaled := x.num.natAbs * 10 ^ prec
  let q := scaled / x.den
  let r := scaled % x.den
  let n := if 2 * r < x.den then q else if x.den < 2 * r then q + 1
           else if q % 2 = 0 then q else q + 1
  let frac := toString (n % 10 ^ prec)
  (if x < 0 then "-" else "") ++ toString (n / 10 ^ prec) ++
    (if prec = 0 then "" else "." ++ String.mk (List.replicate (prec - frac.length) '0') ++ frac)

/-- A number formatter to evaluate examples with: fixed notation under both
settings of the notation flag (every stream of the program inserts
`std::fixed` before its first number). -/
def fixedFmt : Bool → Nat → ℚ → String := fun _ prec x => fixedText prec x

/-- The trade actions of a run, in the order they were emitted. -/
def allActions : List (List LogCall) → List String
  | [] => []
  | calls :: rest => tradeActions calls ++ allActions rest

/-- The position value that goes with the actions emitted so far: 0 when there
is none, 1 when the last one is BUY, -1 when the last one is SELL. -/
def PositionTracks (position : Int) (acts : List String) : Prop :=
  (position = 0 ∧ acts = []) ∨
  (position = 1 ∧ acts.getLast? = some "BUY") ∨
  (position = -1 ∧ acts.getLast? = some "SELL")

/-! ## Command-line options (lines 31-41) -/

/-- The test `arg.find(opt) == 0` of lines 34-39: `opt` stands at the start
of `arg`. -/
def findAtStart (arg opt : String) : Bool :=
  opt.data.isPrefixOf arg.data

/-- The call `arg.substr(pos)`: the characters of `arg` from position `pos`
to the end; it throws (`none`) when `pos` is beyond the end of `arg`. -/
def substr (arg : String) (pos : Nat) : Option String :=
  if pos ≤ arg.data.length then some (String.mk (arg.data.drop pos)) else none

/-- One turn of the loop of `Config::parse_args` (lines 33-39) on the argument
`arg`.  `stod` and `stoul` are the conversions of the standard library, `none`
when they throw; the result is `none` when the turn throws. -/
def Config.parse_arg (stod : String → Option ℚ) (stoul : String → Option Nat) (c : Config)
    (arg : String) : Option Config :=
  if findAtStart arg "--symbol=" then
    (substr arg 9).map (fun v => { c with symbol := v })
  else if findAtStart arg "--initial-price=" then
    ((substr arg 16).bind stod).map (fun x => { c with initial_price := x })
  else if findAtStart arg "--update-interval=" then
    ((substr arg 17).bind stod).map (fun x => { c with update_interval_ms := x })
  else if findAtStart arg "--window=" then
    ((substr arg 9).bind stoul).map (fun n => { c with strategy_window := n })
  else if findAtStart arg "--threshold=" then
    ((substr arg 12).bind stod).map (fun x => { c with strategy_threshold := x })
  else if findAtStart arg "--log-file=" then
    (substr arg 11).map (fun v => { c with log_file := v })
  else some c

/-- The method `Config::parse_args` (lines 31-41) on the arguments
`argv[1], ..., argv[argc - 1]`. -/
def Config.parse_args (stod : String → Option ℚ) (stoul : String → Option Nat) (c : Config) :
    List String → Option Config
  | [] => some c
  | arg :: rest =>
    match Config.parse_arg stod stoul c arg with
    | none => none
    | some c1 => Config.parse_args stod stoul c1 rest

/-! ## Double arithmetic for line 193 -/

/-- The integer nearest to `n / d`, the even one of the two when `n / d` lies
half way between them. -/
def roundHalfEven (n d : Nat) : Nat :=
  if 2 * (n % d) < d then n / d
  else if d < 2 * (n % d) then n / d + 1
  else if (n / d) % 2 = 0 then n / d else n / d + 1

/-- The number of binary digits of `n`, counted in at most `fuel` halvings. -/
def binaryDigits : Nat → Nat → Nat
  | 0, _ => 0
  | fuel + 1, n => if n = 0 then 0 else binaryDigits fuel (n / 2) + 1

/-- The integer part of the binary logarithm of `n / d`, for positive `n` and
`d`. -/
def floorLog2 (n d : Nat) : Int :=
  let k : Int := (binaryDigits n n : Int) - (binaryDigits d d : Int)
  if d * 2 ^ k.toNat ≤ n * 2 ^ (-k).toNat then k else k - 1

/-- The `double` (IEEE 754 binary64) nearest to the real number `x`, ties to
the even significand: 53 significant binary digits, exponent of the last digit
at least -1074, an infinity when the rounded value reaches `2 ^ 1024`.  The sign of a zero is not
kept. -/
def roundBinary64 (x : ℚ) : FVal :=
  if x = 0 then FVal.fin 0
  else
    let n := x.num.natAbs
    let d := x.den
    let e : Int := max (floorLog2 n d - 52) (-1074)
    let m := roundHalfEven (n * 2 ^ (-e).toNat) (d * 2 ^ e.toNat)
    if 971 < e ∨ (e = 971 ∧ 2 ^ 53 ≤ m) then
      if 0 < x then FVal.posInf else FVal.negInf
    else if 0 < x then FVal.fin (mkRat (m * 2 ^ e.toNat : Nat) (2 ^ (-e).toNat))
    else FVal.fin (mkRat (-((m * 2 ^ e.toNat : Nat) : Int)) (2 ^ (-e).toNat))

/-- The difference `a - b` of two doubles: the exact difference, rounded. -/
def doubleSub (a b : ℚ) : FVal :=
  roundBinary64 (a - b)

/-- The quotient `a / b` of two doubles, `b` finite: the exact quotient,
rounded; an infinity divided by `b` is an infinity, and a division by zero is
as in `fdiv`. -/
def doubleDiv : FVal → ℚ → FVal
  | FVal.fin a, b => if b = 0 then fdiv a b else roundBinary64 (a / b)
  | FVal.posInf, b => if b < 0 then FVal.negInf else FVal.posInf
  | FVal.negInf, b => if b < 0 then FVal.posInf else FVal.negInf
  | FVal.nan, _ => FVal.nan

/-- The momentum of line 193 in double arithmetic:
`(prices.back() - prices.front()) / prices.front()`. -/
def doubleMomentum (back front : ℚ) : FVal :=
  doubleDiv (doubleSub back front) front

/-- The defaults with `--window=2 --threshold=0.1`: the threshold is the
double nearest to 0.1. -/
def Config.tenth : Config :=
  { Config.defaults with strategy_window := 2, strategy_threshold := 3602879701896397 / 36028797018963968 }

/-- The method `StrategyComponent::on_price_update` (lines 185-205) with the
arithmetic of line 193 as a parameter: `quot back front` is the value the
machine gives to `(prices.back() - prices.front()) / prices.front()`.  With
`doubleMomentum` it is the program as compiled for doubles; with the exact
quotient it is `on_price_update`. -/
def StrategyComponent.on_price_update_fp (quot : ℚ → ℚ → FVal) (s : StrategyComponent)
    (price timestamp : ℚ) : Option (StrategyComponent × List LogCall) :=
  let history := StrategyComponent.slide s.config_.strategy_window s.price_history_ price
  if history.length = s.config_.strategy_window then
    match history.head?, history.getLast? with
    | some front, some back =>
      let momentum := quot back front
      if momentum.gt s.config_.strategy_threshold = true ∧ s.position_ ≠ 1 then
        some ({ s with price_history_ := history, position_ := 1 },
              [LogCall.momentum momentum, LogCall.trade "BUY" price timestamp])
      else if momentum.lt (-s.config_.strategy_threshold) = true ∧ s.position_ ≠ -1 then
        some ({ s with price_history_ := history, position_ := -1 },
              [LogCall.momentum momentum, LogCall.trade "SELL" price timestamp])
      else
        some ({ s with price_history_ := history }, [LogCall.momentum momentum])
    | _, _ => none
  else
    some ({ s with price_history_ := history }, [])

/-! ## Arithmetic of the wrapping cursors -/

theorem cursor_succ_mod (t N : Nat) (ht : t < N) :
    (t + 1) % N = if t + 1 = N then 0 else t + 1 := by
  split_ifs with h
  · rw [h, Nat.mod_self]
  · exact Nat.mod_eq_of_lt (by omega)

theorem cursor_dist (h t N : Nat) (hh : h < N) (ht : t < N) :
    (t + N - h) % N = if h ≤ t then t - h else t + N - h := by
  split_ifs with c
  · have e : t + N - h = (t - h) + N := by omega
    rw [e, Nat.add_mod_right, Nat.mod_eq_of_lt (by omega)]
  · exact Nat.mod_eq_of_lt (by omega)

theorem cursor_index (h i N : Nat) (hh : h < N) (hi : i < N) :
    (h + i) % N = if h + i < N then h + i else h + i - N := by
  split_ifs with c
  · exact Nat.mod_eq_of_lt c
  · have e : h + i = (h + i - N) + N := by omega
    rw [e, Nat.add_mod_right, Nat.mod_eq_of_lt (by omega)]
    omega

namespace LockFreeQueue

variable {T : Type} {Size : Nat}

theorem contents_length (q : LockFreeQueue T Size) (hw : q.InBounds) :
    q.contents.length = (q.tail_ + Size - q.head_) % Size := by
  have hS : 0 < Size := by have := hw.1; omega
  simp [contents, hS]

theorem push_full (q : LockFreeQueue T Size) (hw : q.InBounds) (item : T)
    (hf : (q.tail_ + 1) % Size = q.head_) :
    q.push item = some (false, q) ∧ q.contents.length = Size - 1 := by
  obtain ⟨hh, ht⟩ := hw
  have hS : Size ≠ 0 := by omega
  refine ⟨by simp [push, hS, hf], ?_⟩
  rw [contents_length q ⟨hh, ht⟩, cursor_dist _ _ _ hh ht]
  rw [cursor_succ_mod _ _ ht] at hf
  split_ifs at hf ⊢ <;> omega

theorem push_room (q : LockFreeQueue T Size) (hw : q.InBounds) (item : T)
    (hf : (q.tail_ + 1) % Size ≠ q.head_) :
    ∃ q1 : LockFreeQueue T Size, q.push item = some (true, q1) ∧ q1.InBounds ∧
      q1.contents = q.contents ++ [item] ∧ q.contents.length < Size - 1 ∧
      q1.head_ = q.head_ ∧ q1.tail_ = (q.tail_ + 1) % Size ∧
      q1.buffer_ = Function.update q.buffer_ ⟨q.tail_, hw.2⟩ item := by
  obtain ⟨hh, ht⟩ := hw
  have hS : Size ≠ 0 := by omega
  have hS0 : 0 < Size := by omega
  refine ⟨{ buffer_ := Function.update q.buffer_ ⟨q.tail_, ht⟩ item,
            head_ := q.head_, tail_ := (q.tail_ + 1) % Size }, ?_, ?_, ?_, ?_, rfl, rfl, rfl⟩
  · simp [push, hS, hf, ht]
  · exact ⟨hh, Nat.mod_lt _ hS0⟩
  · have hlen : ((q.tail_ + 1) % Size + Size - q.head_) % Size
        = (q.tail_ + Size - q.head_) % Size + 1 := by
      rw [cursor_dist _ _ _ hh (Nat.mod_lt _ hS0), cursor_dist _ _ _ hh ht]
      rw [cursor_succ_mod _ _ ht] at hf ⊢
      split_ifs at hf ⊢ <;> omega
    simp only [contents, hS0, dite_true, hlen, List.range_succ, List.map_append,
      List.map_cons, List.map_nil]
    congr 1
    · apply List.map_congr_left
      intro i hi
      rw [List.mem_range] at hi
      rw [Function.update_noteq]
      intro hEq
      have hEq2 : (q.head_ + i) % Size = q.tail_ := congrArg Fin.val hEq
      rw [cursor_dist _ _ _ hh ht] at hi
      have hiN : i < Size := by split_ifs at hi <;> omega
      rw [cursor_index _ _ _ hh hiN] at hEq2
      split_ifs at hi hEq2 <;> omega
    · have hidx : (q.head_ + (q.tail_ + Size - q.head_) % Size) % Size = q.tail_ := by
        rw [cursor_dist _ _ _ hh ht]
        split_ifs with c
        · rw [Nat.mod_eq_of_lt (by omega)]; omega
        · have e : q.head_ + (q.tail_ + Size - q.head_) = q.tail_ + Size := by omega
          rw [e, Nat.add_mod_right, Nat.mod_eq_of_lt ht]
      have hfin : (⟨(q.head_ + (q.tail_ + Size - q.head_) % Size) % Size,
          Nat.mod_lt _ hS0⟩ : Fin Size) = ⟨q.tail_, ht⟩ := Fin.ext hidx
      rw [hfin, Function.update_same]
  · rw [contents_length q ⟨hh, ht⟩, cursor_dist _ _ _ hh ht]
    rw [cursor_succ_mod _ _ ht] at hf
    split_ifs at hf ⊢ <;> omega

theorem pop_empty (q : LockFreeQueue T Size) (slot : T) (he : q.head_ = q.tail_) :
    q.pop slot = some (false, slot, q) := by
  simp [pop, he]

theorem contents_empty (q : LockFreeQueue T Size) (hw : q.InBounds) (he : q.head_ = q.tail_) :
    q.contents = [] := by
  have hS0 : 0 < Size := by have := hw.1; omega
  apply List.eq_nil_of_length_eq_zero
  rw [contents_length q hw, he, cursor_dist _ _ _ hw.2 hw.2]
  simp

theorem pop_item (q : LockFreeQueue T Size) (hw : q.InBounds) (slot : T)
    (he : q.head_ ≠ q.tail_) :
    ∃ q1 : LockFreeQueue T Size, q.pop slot = some (true, q.buffer_ ⟨q.head_, hw.1⟩, q1) ∧
      q1.InBounds ∧ q.contents = q.buffer_ ⟨q.head_, hw.1⟩ :: q1.contents ∧
      q1.head_ = (q.head_ + 1) % Size ∧ q1.tail_ = q.tail_ ∧ q1.buffer_ = q.buffer_ := by
  obtain ⟨hh, ht⟩ := hw
  have hS0 : 0 < Size := by omega
  refine ⟨{ buffer_ := q.buffer_, head_ := (q.head_ + 1) % Size, tail_ := q.tail_ },
    ?_, ?_, ?_, rfl, rfl, rfl⟩
  · simp [pop, he, hh]
  · exact ⟨Nat.mod_lt _ hS0, ht⟩
  · have hlen : (q.tail_ + Size - q.head_) % Size
        = (q.tail_ + Size - (q.head_ + 1) % Size) % Size + 1 := by
      rw [cursor_dist _ _ _ (Nat.mod_lt _ hS0) ht, cursor_dist _ _ _ hh ht]
      rw [cursor_succ_mod _ _ hh]
      split_ifs <;> omega
    simp only [contents, hS0, dite_true]
    rw [hlen, List.range_succ_eq_map, List.map_cons, List.map_map]
    congr 1
    · exact congrArg q.buffer_ (Fin.ext (by simp [Nat.mod_eq_of_lt hh]))
    · apply List.map_congr_left
      intro i _
      apply congrArg q.buffer_
      apply Fin.ext
      show (q.head_ + (i + 1)) % Size = ((q.head_ + 1) % Size + i) % Size
      rw [Nat.mod_add_mod]
      congr 1
      omega

end LockFreeQueue

/-! ## The queue refines the list-based FIFO -/

namespace LockFreeQueue

variable {T : Type} {Size : Nat}

theorem fresh_inBounds (init : Fin Size → T) (hS : 0 < Size) : (fresh init).InBounds :=
  ⟨hS, hS⟩

theorem fresh_contents (init : Fin Size → T) : (fresh init).contents = [] := by
  unfold contents
  split_ifs with h
  · simp [fresh]
  · rfl

theorem step_refines (q : LockFreeQueue T Size) (hw : q.InBounds) (op : Op T) :
    ∃ q1 : LockFreeQueue T Size,
      q.step op = some ((fifoStep (Size - 1) q.contents op).1, q1) ∧ q1.InBounds ∧
      q1.contents = (fifoStep (Size - 1) q.contents op).2 := by
  cases op with
  | push item =>
    by_cases hf : (q.tail_ + 1) % Size = q.head_
    · obtain ⟨hp, hl⟩ := push_full q hw item hf
      exact ⟨q, by simp [step, hp, fifoStep, fifoPush, hl], hw,
        by simp [fifoStep, fifoPush, hl]⟩
    · obtain ⟨q1, hp, hw1, hc, hl, -⟩ := push_room q hw item hf
      exact ⟨q1, by simp [step, hp, fifoStep, fifoPush, hl], hw1,
        by simp [fifoStep, fifoPush, hl, hc]⟩
  | pop slot =>
    by_cases he : q.head_ = q.tail_
    · have hc := contents_empty q hw he
      exact ⟨q, by simp [step, pop_empty q slot he, fifoStep, fifoPop, hc], hw,
        by simp [fifoStep, fifoPop, hc]⟩
    · obtain ⟨q1, hp, hw1, hc, -⟩ := pop_item q hw slot he
      exact ⟨q1, by simp [step, hp, fifoStep, fifoPop, hc], hw1,
        by simp [fifoStep, fifoPop, hc]⟩

theorem run_refines (ops : List (Op T)) :
    ∀ q : LockFreeQueue T Size, q.InBounds →
      ∃ q1 : LockFreeQueue T Size,
        q.run ops = some ((fifoRun (Size - 1) q.contents ops).1, q1) ∧ q1.InBounds ∧
        q1.contents = (fifoRun (Size - 1) q.contents ops).2 := by
  induction ops with
  | nil => intro q hw; exact ⟨q, rfl, hw, rfl⟩
  | cons op ops ih =>
    intro q hw
    obtain ⟨q1, hs, hw1, hc1⟩ := step_refines q hw op
    obtain ⟨q2, hr, hw2, hc2⟩ := ih q1 hw1
    refine ⟨q2, ?_, hw2, ?_⟩
    · simp only [run, hs, hr, fifoRun, hc1]
    · simp only [fifoRun, hc2, hc1]

end LockFreeQueue

theorem fifoRun_accepted {T : Type} (cap : Nat) (ops : List (Op T)) :
    ∀ l : List T, l ++ accepted ops (fifoRun cap l ops).1
      = delivered (fifoRun cap l ops).1 ++ (fifoRun cap l ops).2 := by
  induction ops with
  | nil => intro l; simp [fifoRun, accepted, delivered]
  | cons op ops ih =>
    intro l
    cases op with
    | push item =>
      by_cases hl : l.length < cap
      · have := ih (l ++ [item])
        simp only [fifoRun, fifoStep, fifoPush, hl, if_true, accepted, delivered] at this ⊢
        simpa using this
      · have := ih l
        simp only [fifoRun, fifoStep, fifoPush, hl, if_false, accepted, delivered] at this ⊢
        simpa using this
    | pop slot =>
      cases l with
      | nil =>
        have := ih ([] : List T)
        simp only [fifoRun, fifoStep, fifoPop, accepted, delivered] at this ⊢
        simpa using this
      | cons x rest =>
        have := ih rest
        simp only [fifoRun, fifoStep, fifoPop, accepted, delivered] at this ⊢
        simpa using this

theorem fifoRun_append {T : Type} (cap : Nat) (a b : List (Op T)) :
    ∀ l : List T, fifoRun cap l (a ++ b)
      = ((fifoRun cap l a).1 ++ (fifoRun cap (fifoRun cap l a).2 b).1,
         (fifoRun cap (fifoRun cap l a).2 b).2) := by
  induction a with
  | nil => intro l; simp [fifoRun]
  | cons op a ih => intro l; simp [fifoRun, ih]

theorem fifoRun_pushes {T : Type} (cap : Nat) (items : List T) :
    ∀ l : List T, fifoRun cap l (items.map Op.push)
      = (List.replicate (min (cap - l.length) items.length) (Res.pushed true)
           ++ List.replicate (items.length - (cap - l.length)) (Res.pushed false),
         l ++ items.take (cap - l.length)) := by
  induction items with
  | nil => intro l; simp [fifoRun]
  | cons x items ih =>
    intro l
    by_cases hl : l.length < cap
    · have h1 : min (cap - l.length) (items.length + 1)
          = min (cap - (l.length + 1)) items.length + 1 := by omega
      have h2 : items.length + 1 - (cap - l.length) = items.length - (cap - (l.length + 1)) := by
        omega
      have h3 : cap - l.length = (cap - (l.length + 1)) + 1 := by omega
      simp only [List.map_cons, fifoRun, fifoStep, fifoPush, hl, if_true, ih, List.length_append,
        List.length_cons, List.length_nil, h1, h2, List.replicate_succ, List.cons_append]
      rw [h3, List.take_succ_cons]
      simp
    · have h1 : min (cap - l.length) (items.length + 1) = 0 := by omega
      have h2 : min (cap - l.length) items.length = 0 := by omega
      have h3 : cap - l.length = 0 := by omega
      simp only [List.map_cons, fifoRun, fifoStep, fifoPush, hl, if_false, ih, List.length_cons,
        h3, Nat.zero_min, List.replicate_zero, List.nil_append, Nat.sub_zero,
        List.replicate_succ, List.take_zero]

theorem fifoRun_pops {T : Type} (cap : Nat) (slots : List T) :
    ∀ l : List T, slots.length ≤ l.length →
      fifoRun cap l (slots.map Op.pop)
        = ((l.take slots.length).map (Res.popped true), l.drop slots.length) := by
  induction slots with
  | nil => intro l _; simp [fifoRun]
  | cons s slots ih =>
    intro l hl
    cases l with
    | nil => simp at hl
    | cons x rest =>
      have hl1 : slots.length ≤ rest.length := by simpa using hl
      simp [fifoRun, fifoStep, fifoPop, ih rest hl1]

theorem fifoRun_counts {T : Type} (cap : Nat) (ops : List (Op T)) :
    ∀ l : List T, l.length + pushCount (fifoRun cap l ops).1
      = popCount (fifoRun cap l ops).1 + (fifoRun cap l ops).2.length := by
  induction ops with
  | nil => intro l; simp [fifoRun, pushCount, popCount]
  | cons op ops ih =>
    intro l
    cases op with
    | push item =>
      by_cases hl : l.length < cap
      · have := ih (l ++ [item])
        simp only [fifoRun, fifoStep, fifoPush, hl, if_true, pushCount, popCount,
          List.length_append, List.length_cons, List.length_nil] at this ⊢
        omega
      · have := ih l
        simp only [fifoRun, fifoStep, fifoPush, hl, if_false, pushCount, popCount] at this ⊢
        omega
    | pop slot =>
      cases l with
      | nil =>
        have := ih ([] : List T)
        simp only [fifoRun, fifoStep, fifoPop, pushCount, popCount, List.length_nil] at this ⊢
        omega
      | cons x rest =>
        have := ih rest
        simp only [fifoRun, fifoStep, fifoPop, pushCount, popCount, List.length_cons] at this ⊢
        omega

/-- C1: for every capacity `Size >= 2`, every initial array content and every
finite sequence of push and pop calls on a freshly constructed queue, every
call returns, the results are those of the list-based FIFO of capacity
`Size - 1` started empty, the unread items are that FIFO's list, and the items
whose push returned true are the items returned by the successful pops, in
order, followed by the items still queued; so the delivered items are a prefix
of the accepted ones. -/
theorem queue_refines_fifo {T : Type} (Size : Nat) (hN : 2 ≤ Size) (init : Fin Size → T)
    (ops : List (Op T)) :
    ∃ (rs : List (Res T)) (q1 : LockFreeQueue T Size),
      (LockFreeQueue.fresh init).run ops = some (rs, q1) ∧
      rs = (fifoRun (Size - 1) [] ops).1 ∧
      q1.contents = (fifoRun (Size - 1) [] ops).2 ∧
      accepted ops rs = delivered rs ++ q1.contents ∧
      delivered rs <+: accepted ops rs := by
  obtain ⟨q1, hr, -, hc⟩ :=
    LockFreeQueue.run_refines ops (LockFreeQueue.fresh init)
      (LockFreeQueue.fresh_inBounds init (by omega))
  rw [LockFreeQueue.fresh_contents] at hr hc
  have hacc := fifoRun_accepted (Size - 1) ops ([] : List T)
  rw [List.nil_append] at hacc
  refine ⟨_, q1, hr, rfl, hc, by rw [hc]; exact hacc, ?_⟩
  rw [hacc]
  exact List.prefix_append _ _

/-- Witness of C1 at capacity 3: the third push is refused, the pops return 5
then 6, and the last pop finds the queue empty. -/
theorem queue_refines_fifo_witness :
    2 ≤ 3 ∧ ∃ (rs : List (Res Nat)) (q1 : LockFreeQueue Nat 3),
      (LockFreeQueue.fresh (fun _ => 0)).run
        [Op.push 5, Op.push 6, Op.push 7, Op.pop 0, Op.pop 0, Op.pop 9] = some (rs, q1) ∧
      rs = (fifoRun (3 - 1) []
        [Op.push 5, Op.push 6, Op.push 7, Op.pop 0, Op.pop 0, Op.pop 9]).1 ∧
      q1.contents = (fifoRun (3 - 1) []
        [Op.push 5, Op.push 6, Op.push 7, Op.pop 0, Op.pop 0, Op.pop 9]).2 ∧
      accepted [Op.push 5, Op.push 6, Op.push 7, Op.pop 0, Op.pop 0, Op.pop 9] rs
        = delivered rs ++ q1.contents ∧
      delivered rs <+: accepted [Op.push 5, Op.push 6, Op.push 7, Op.pop 0, Op.pop 0, Op.pop 9] rs :=
  ⟨by decide, queue_refines_fifo 3 (by decide) (fun _ => 0)
    [Op.push 5, Op.push 6, Op.push 7, Op.pop 0, Op.pop 0, Op.pop 9]⟩

/-- C2: for every queue with both cursors below `Size` and every item, push
returns; it returns true exactly when `(tail_ + 1) % Size` differs from
`head_`; when it returns true the slot at the old tail holds the item, the tail
is `(tail_ + 1) % Size`, head and the other slots are unchanged, and popping
as many times as there were unread items returns those items, oldest first,
after which the next pop returns the item; when it returns false the queue is
unchanged. -/
theorem push_contract {T : Type} {Size : Nat} (q : LockFreeQueue T Size) (item : T)
    (hh : q.head_ < Size) (ht : q.tail_ < Size) :
    ∃ (ok : Bool) (q1 : LockFreeQueue T Size),
      q.push item = some (ok, q1) ∧
      (ok = true ↔ (q.tail_ + 1) % Size ≠ q.head_) ∧
      (ok = true →
        q1.buffer_ ⟨q.tail_, ht⟩ = item ∧
        q1.buffer_ = Function.update q.buffer_ ⟨q.tail_, ht⟩ item ∧
        q1.tail_ = (q.tail_ + 1) % Size ∧
        q1.head_ = q.head_ ∧
        ∀ slots : List T, slots.length = q.contents.length + 1 →
          ∃ q2 : LockFreeQueue T Size,
            q1.run (slots.map Op.pop)
              = some (q.contents.map (Res.popped true) ++ [Res.popped true item], q2)) ∧
      (ok = false → q1 = q) := by
  by_cases hf : (q.tail_ + 1) % Size = q.head_
  · obtain ⟨hp, -⟩ := LockFreeQueue.push_full q ⟨hh, ht⟩ item hf
    exact ⟨false, q, hp, by simp [hf], by simp, fun _ => rfl⟩
  · obtain ⟨q1, hp, hw1, hc, -, hhd, htl, hb⟩ := LockFreeQueue.push_room q ⟨hh, ht⟩ item hf
    refine ⟨true, q1, hp, by simp [hf], fun _ => ⟨?_, hb, htl, hhd, ?_⟩, by simp⟩
    · rw [hb, Function.update_same]
    · intro slots hs
      obtain ⟨q2, hr, -, -⟩ := LockFreeQueue.run_refines (slots.map Op.pop) q1 hw1
      refine ⟨q2, ?_⟩
      rw [hr, hc, fifoRun_pops _ _ _ (by simp [hs])]
      have : (q.contents ++ [item]).length = slots.length := by simp [hs]
      rw [← this, List.take_length]
      simp

/-- Witness of C2: a push into a queue of 3 slots holding one unread item. -/
theorem push_contract_witness :
    (1 < 3 ∧ 2 < 3) ∧
    ∃ (ok : Bool) (q1 : LockFreeQueue Nat 3),
      (LockFreeQueue.mk (fun _ => 4) 1 2).push 8 = some (ok, q1) ∧
      (ok = true ↔ (2 + 1) % 3 ≠ 1) ∧
      (ok = true →
        q1.buffer_ ⟨2, by decide⟩ = 8 ∧
        q1.buffer_ = Function.update (fun _ => 4) ⟨2, by decide⟩ 8 ∧
        q1.tail_ = (2 + 1) % 3 ∧
        q1.head_ = 1 ∧
        ∀ slots : List Nat,
          slots.length = (LockFreeQueue.mk (fun _ : Fin 3 => 4) 1 2).contents.length + 1 →
          ∃ q2 : LockFreeQueue Nat 3,
            q1.run (slots.map Op.pop)
              = some ((LockFreeQueue.mk (fun _ : Fin 3 => 4) 1 2).contents.map (Res.popped true)
                  ++ [Res.popped true 8], q2)) ∧
      (ok = false → q1 = LockFreeQueue.mk (fun _ => 4) 1 2) :=
  ⟨by decide, push_contract (LockFreeQueue.mk (fun _ => 4) 1 2) 8 (by decide) (by decide)⟩

/-- C3: for every queue with both cursors below `Size`, pop returns; it
returns true exactly when `head_` differs from `tail_`; when it returns true
the output item is the content of the slot at the old head, which is the
oldest unread item, and head is `(head_ + 1) % Size`, tail and buffer being
unchanged; when it returns false the output item and the queue are unchanged. -/
theorem pop_contract {T : Type} {Size : Nat} (q : LockFreeQueue T Size) (item : T)
    (hh : q.head_ < Size) (ht : q.tail_ < Size) :
    ∃ (ok : Bool) (out : T) (q1 : LockFreeQueue T Size),
      q.pop item = some (ok, out, q1) ∧
      (ok = true ↔ q.head_ ≠ q.tail_) ∧
      (ok = true →
        out = q.buffer_ ⟨q.head_, hh⟩ ∧
        q.contents.head? = some out ∧
        q1.head_ = (q.head_ + 1) % Size ∧
        q1.tail_ = q.tail_ ∧
        q1.buffer_ = q.buffer_ ∧
        q1.contents = q.contents.tail) ∧
      (ok = false → out = item ∧ q1 = q) := by
  by_cases he : q.head_ = q.tail_
  · exact ⟨false, item, q, LockFreeQueue.pop_empty q item he, by simp [he], by simp,
      fun _ => ⟨rfl, rfl⟩⟩
  · obtain ⟨q1, hp, -, hc, hhd, htl, hb⟩ := LockFreeQueue.pop_item q ⟨hh, ht⟩ item he
    exact ⟨true, _, q1, hp, by simp [he],
      fun _ => ⟨rfl, by rw [hc]; rfl, hhd, htl, hb, by rw [hc]; rfl⟩, by simp⟩

/-- Witness of C3: a pop from a queue of 3 slots whose head is about to wrap. -/
theorem pop_contract_witness :
    (2 < 3 ∧ 1 < 3) ∧
    ∃ (ok : Bool) (out : Nat) (q1 : LockFreeQueue Nat 3),
      (LockFreeQueue.mk (fun i : Fin 3 => 10 + i.val) 2 1).pop 0 = some (ok, out, q1) ∧
      (ok = true ↔ 2 ≠ 1) ∧
      (ok = true →
        out = 10 + 2 ∧
        (LockFreeQueue.mk (fun i : Fin 3 => 10 + i.val) 2 1).contents.head? = some out ∧
        q1.head_ = (2 + 1) % 3 ∧
        q1.tail_ = 1 ∧
        q1.buffer_ = (fun i : Fin 3 => 10 + i.val) ∧
        q1.contents = (LockFreeQueue.mk (fun i : Fin 3 => 10 + i.val) 2 1).contents.tail) ∧
      (ok = false → out = 0 ∧ q1 = LockFreeQueue.mk (fun i : Fin 3 => 10 + i.val) 2 1) :=
  ⟨by decide, pop_contract (LockFreeQueue.mk (fun i : Fin 3 => 10 + i.val) 2 1) 0
    (by decide) (by decide)⟩

/-- C6: for every capacity `Size >= 2`, every list of `k <= Size - 1` items
and every empty queue (`head_ = tail_ < Size`, wherever the cursors stand),
pushing the items in order returns true `k` times and the `k` pops that follow
all return true and give back exactly those items in push order. -/
theorem push_then_pop_order {T : Type} (Size : Nat) (hN : 2 ≤ Size) (q : LockFreeQueue T Size)
    (he : q.head_ = q.tail_) (ht : q.tail_ < Size) (items slots : List T)
    (hk : items.length ≤ Size - 1) (hs : slots.length = items.length) :
    ∃ q1 : LockFreeQueue T Size,
      q.run (items.map Op.push ++ slots.map Op.pop)
        = some (List.replicate items.length (Res.pushed true)
                  ++ items.map (Res.popped true), q1) := by
  have hw : q.InBounds := ⟨by rw [he]; exact ht, ht⟩
  obtain ⟨q1, hr, -, -⟩ :=
    LockFreeQueue.run_refines (items.map Op.push ++ slots.map Op.pop) q hw
  refine ⟨q1, ?_⟩
  rw [hr, LockFreeQueue.contents_empty q hw he, fifoRun_append, fifoRun_pushes]
  have h1 : min (Size - 1 - ([] : List T).length) items.length = items.length := by
    simp only [List.length_nil]; omega
  have h2 : items.length - (Size - 1 - ([] : List T).length) = 0 := by
    simp only [List.length_nil]; omega
  have h3 : List.take (Size - 1 - ([] : List T).length) items = items :=
    List.take_of_length_le (by simp only [List.length_nil]; omega)
  simp only [h1, h2, h3, List.replicate_zero, List.append_nil, List.nil_append]
  rw [fifoRun_pops _ _ _ (by omega), hs, List.take_length]

/-- Witness of C6: an empty queue of 3 slots whose cursors stand on the last
slot, so that the second push wraps around. -/
theorem push_then_pop_order_witness :
    (2 ≤ 3 ∧ 2 = 2 ∧ 2 < 3 ∧ [7, 8].length ≤ 3 - 1 ∧ [0, 0].length = [7, 8].length) ∧
    ∃ q1 : LockFreeQueue Nat 3,
      (LockFreeQueue.mk (fun _ => 0) 2 2).run ([7, 8].map Op.push ++ [0, 0].map Op.pop)
        = some (List.replicate [7, 8].length (Res.pushed true)
                  ++ [7, 8].map (Res.popped true), q1) :=
  ⟨by decide, push_then_pop_order 3 (by decide) (LockFreeQueue.mk (fun _ => 0) 2 2) rfl
    (by decide) [7, 8] [0, 0] (by decide) rfl⟩

/-- C7: for every capacity `Size >= 1` and every list of `Size` items pushed
into an empty queue (`head_ = tail_ < Size`) with no pop in between, each of
the first `Size - 1` pushes returns true and the last push returns false. -/
theorem capacity_bound {T : Type} (Size : Nat) (hN : 1 ≤ Size) (q : LockFreeQueue T Size)
    (he : q.head_ = q.tail_) (ht : q.tail_ < Size) (items : List T)
    (hk : items.length = Size) :
    ∃ q1 : LockFreeQueue T Size,
      q.run (items.map Op.push)
        = some (List.replicate (Size - 1) (Res.pushed true) ++ [Res.pushed false], q1) := by
  have hw : q.InBounds := ⟨by rw [he]; exact ht, ht⟩
  obtain ⟨q1, hr, -, -⟩ := LockFreeQueue.run_refines (items.map Op.push) q hw
  refine ⟨q1, ?_⟩
  rw [hr, LockFreeQueue.contents_empty q hw he, fifoRun_pushes]
  have h1 : min (Size - 1 - ([] : List T).length) items.length = Size - 1 := by
    simp only [List.length_nil]; omega
  have h2 : items.length - (Size - 1 - ([] : List T).length) = 1 := by
    simp only [List.length_nil]; omega
  simp only [h1, h2, List.replicate_one]

/-- Witness of C7 at capacity 1, where the only push is refused. -/
theorem capacity_bound_witness :
    (1 ≤ 1 ∧ 0 = 0 ∧ 0 < 1 ∧ [5].length = 1) ∧
    ∃ q1 : LockFreeQueue Nat 1,
      (LockFreeQueue.mk (fun _ => 0) 0 0).run ([5].map Op.push)
        = some (List.replicate (1 - 1) (Res.pushed true) ++ [Res.pushed false], q1) :=
  ⟨by decide, capacity_bound 1 (by decide) (LockFreeQueue.mk (fun _ => 0) 0 0) rfl
    (by decide) [5] rfl⟩

/-- C9: for every capacity `Size >= 1` and every sequence of push and pop
calls on a freshly constructed queue, every call returns, and in the state
reached the number of pushes that returned true minus the number of pops that
returned true equals `(tail_ - head_) mod Size` and is at most `Size - 1`. -/
theorem live_items_bound {T : Type} (Size : Nat) (hN : 1 ≤ Size) (init : Fin Size → T)
    (ops : List (Op T)) :
    ∃ (rs : List (Res T)) (q1 : LockFreeQueue T Size),
      (LockFreeQueue.fresh init).run ops = some (rs, q1) ∧
      (pushCount rs : ℤ) - (popCount rs : ℤ) = ((q1.tail_ : ℤ) - (q1.head_ : ℤ)) % (Size : ℤ) ∧
      (pushCount rs : ℤ) - (popCount rs : ℤ) ≤ (Size : ℤ) - 1 ∧
      popCount rs ≤ pushCount rs := by
  obtain ⟨q1, hr, hw1, hc⟩ :=
    LockFreeQueue.run_refines ops (LockFreeQueue.fresh init)
      (LockFreeQueue.fresh_inBounds init (by omega))
  rw [LockFreeQueue.fresh_contents] at hr hc
  have hcnt := fifoRun_counts (Size - 1) ops ([] : List T)
  rw [← hc, LockFreeQueue.contents_length q1 hw1] at hcnt
  simp only [List.length_nil, Nat.zero_add] at hcnt
  have hlt : (q1.tail_ + Size - q1.head_) % Size < Size := Nat.mod_lt _ (by omega)
  have hmod : ((q1.tail_ : ℤ) - (q1.head_ : ℤ)) % (Size : ℤ)
      = (((q1.tail_ + Size - q1.head_) % Size : ℕ) : ℤ) := by
    have hle : q1.head_ ≤ q1.tail_ + Size := by have := hw1.1; omega
    rw [Int.natCast_mod, Nat.cast_sub hle, Nat.cast_add]
    have e : (q1.tail_ : ℤ) + (Size : ℤ) - (q1.head_ : ℤ)
        = ((q1.tail_ : ℤ) - (q1.head_ : ℤ)) + (Size : ℤ) := by ring
    rw [e, Int.add_emod_self]
  refine ⟨_, q1, hr, ?_, ?_, ?_⟩
  · rw [hmod]; omega
  · omega
  · omega

/-- Witness of C9 at capacity 3. -/
theorem live_items_bound_witness :
    1 ≤ 3 ∧
    ∃ (rs : List (Res Nat)) (q1 : LockFreeQueue Nat 3),
      (LockFreeQueue.fresh (fun _ => 0)).run
        [Op.push 5, Op.push 6, Op.push 7, Op.pop 0, Op.push 8] = some (rs, q1) ∧
      (pushCount rs : ℤ) - (popCount rs : ℤ) = ((q1.tail_ : ℤ) - (q1.head_ : ℤ)) % ((3 : ℕ) : ℤ) ∧
      (pushCount rs : ℤ) - (popCount rs : ℤ) ≤ ((3 : ℕ) : ℤ) - 1 ∧
      popCount rs ≤ pushCount rs :=
  ⟨by decide, live_items_bound 3 (by decide) (fun _ => 0)
    [Op.push 5, Op.push 6, Op.push 7, Op.pop 0, Op.push 8]⟩

/-! ## The trade decision -/

namespace StrategyComponent

theorem window_momentum_some {W : Nat} {history : List ℚ} {m : FVal}
    (h : window_momentum W history = some m) :
    history.length = W ∧ ∃ front back, history.head? = some front ∧
      history.getLast? = some back ∧ m = fdiv (back - front) front := by
  unfold window_momentum at h
  split_ifs at h with hl
  refine ⟨hl, ?_⟩
  split at h
  · rename_i front back hf hb
    exact ⟨front, back, hf, hb, by simpa using h.symm⟩
  · simp at h

theorem on_price_update_buy (s : StrategyComponent) (price timestamp : ℚ) (m : FVal)
    (hm : window_momentum s.config_.strategy_window
      (slide s.config_.strategy_window s.price_history_ price) = some m)
    (hgt : m.gt s.config_.strategy_threshold = true) (hpos : s.position_ ≠ 1) :
    s.on_price_update price timestamp
      = some ({ s with price_history_ := slide s.config_.strategy_window s.price_history_ price,
                       position_ := 1 },
              [LogCall.momentum m, LogCall.trade "BUY" price timestamp]) := by
  obtain ⟨hl, front, back, hf, hb, rfl⟩ := window_momentum_some hm
  simp only [on_price_update, hl, hf, hb, if_true]
  rw [if_pos ⟨hgt, hpos⟩]

theorem on_price_update_sell (s : StrategyComponent) (price timestamp : ℚ) (m : FVal)
    (hm : window_momentum s.config_.strategy_window
      (slide s.config_.strategy_window s.price_history_ price) = some m)
    (hgt : ¬ (m.gt s.config_.strategy_threshold = true ∧ s.position_ ≠ 1))
    (hlt : m.lt (-s.config_.strategy_threshold) = true) (hpos : s.position_ ≠ -1) :
    s.on_price_update price timestamp
      = some ({ s with price_history_ := slide s.config_.strategy_window s.price_history_ price,
                       position_ := -1 },
              [LogCall.momentum m, LogCall.trade "SELL" price timestamp]) := by
  obtain ⟨hl, front, back, hf, hb, rfl⟩ := window_momentum_some hm
  simp only [on_price_update, hl, hf, hb, if_true]
  rw [if_neg hgt, if_pos ⟨hlt, hpos⟩]

theorem on_price_update_hold (s : StrategyComponent) (price timestamp : ℚ) (m : FVal)
    (hm : window_momentum s.config_.strategy_window
      (slide s.config_.strategy_window s.price_history_ price) = some m)
    (hgt : ¬ (m.gt s.config_.strategy_threshold = true ∧ s.position_ ≠ 1))
    (hlt : ¬ (m.lt (-s.config_.strategy_threshold) = true ∧ s.position_ ≠ -1)) :
    s.on_price_update price timestamp
      = some ({ s with price_history_ := slide s.config_.strategy_window s.price_history_ price },
              [LogCall.momentum m]) := by
  obtain ⟨hl, front, back, hf, hb, rfl⟩ := window_momentum_some hm
  simp only [on_price_update, hl, hf, hb, if_true]
  rw [if_neg hgt, if_neg hlt]

theorem gt_not_lt_neg (m : FVal) (T : ℚ) (hT : 0 ≤ T) (h : m.gt T = true) :
    ¬ (m.lt (-T) = true) := by
  cases m with
  | fin q =>
    simp only [FVal.gt, FVal.lt, decide_eq_true_eq] at h ⊢
    linarith
  | posInf => simp [FVal.lt]
  | negInf => simp [FVal.gt] at h
  | nan => simp [FVal.gt] at h

end StrategyComponent

/-! ## The window of a newly constructed component -/

namespace StrategyComponent

theorem slide_full (W : Nat) (history : List ℚ) (price : ℚ) (hl : history.length = W)
    (hW : 1 ≤ W) : slide W history price = history.tail ++ [price] := by
  cases history with
  | nil => simp at hl; omega
  | cons x rest =>
    have : (x :: rest ++ [price]).length > W := by simp at hl ⊢; omega
    simp only [slide, this, if_true]
    rfl

theorem on_price_update_full (s : StrategyComponent) (price timestamp : ℚ)
    (hl : s.price_history_.length = s.config_.strategy_window)
    (hW : 1 ≤ s.config_.strategy_window) :
    ∃ (s1 : StrategyComponent) (calls : List LogCall),
      s.on_price_update price timestamp = some (s1, calls) ∧
      s1.config_ = s.config_ ∧
      s1.price_history_ = s.price_history_.tail ++ [price] ∧
      momentumValues calls
        = [fdiv (price - (s.price_history_ ++ [price]).getD 1 0)
            ((s.price_history_ ++ [price]).getD 1 0)] := by
  have hs := slide_full _ _ price hl hW
  have hm : window_momentum s.config_.strategy_window
      (slide s.config_.strategy_window s.price_history_ price)
      = some (fdiv (price - (s.price_history_ ++ [price]).getD 1 0)
            ((s.price_history_ ++ [price]).getD 1 0)) := by
    rw [hs]
    cases hh : s.price_history_ with
    | nil => rw [hh] at hl; simp at hl; omega
    | cons x rest =>
      have hlen : (rest ++ [price]).length = s.config_.strategy_window := by
        rw [hh] at hl; simp at hl ⊢; exact hl
      have hlast : (rest ++ [price]).getLast? = some price := List.getLast?_concat rest
      cases rest with
      | nil => simp [window_momentum, hlen.symm]
      | cons y rest2 =>
        rw [List.tail_cons, window_momentum, if_pos hlen, hlast]
        simp
  by_cases hb : (fdiv (price - (s.price_history_ ++ [price]).getD 1 0)
      ((s.price_history_ ++ [price]).getD 1 0)).gt s.config_.strategy_threshold = true
      ∧ s.position_ ≠ 1
  · exact ⟨_, _, on_price_update_buy s price timestamp _ hm hb.1 hb.2, rfl, hs, rfl⟩
  · by_cases hc : (fdiv (price - (s.price_history_ ++ [price]).getD 1 0)
        ((s.price_history_ ++ [price]).getD 1 0)).lt (-s.config_.strategy_threshold) = true
        ∧ s.position_ ≠ -1
    · exact ⟨_, _, on_price_update_sell s price timestamp _ hm hb hc.1 hc.2, rfl, hs, rfl⟩
    · exact ⟨_, _, on_price_update_hold s price timestamp _ hm hb hc, rfl, hs, rfl⟩

theorem process_full (ticks : List (ℚ × ℚ)) :
    ∀ s : StrategyComponent, s.price_history_.length = s.config_.strategy_window →
      1 ≤ s.config_.strategy_window →
      ∃ (s1 : StrategyComponent) (outs : List (List LogCall)),
        s.process ticks = some (s1, outs) ∧
        s1.config_ = s.config_ ∧
        s1.price_history_ = (s.price_history_ ++ ticks.map Prod.fst).drop ticks.length ∧
        outs.length = ticks.length ∧
        ∀ i, i < ticks.length →
          (outs[i]?).map momentumValues
            = some [fdiv ((s.price_history_ ++ ticks.map Prod.fst).getD
                            (i + s.config_.strategy_window) 0
                          - (s.price_history_ ++ ticks.map Prod.fst).getD (i + 1) 0)
                      ((s.price_history_ ++ ticks.map Prod.fst).getD (i + 1) 0)] := by
  induction ticks with
  | nil =>
    intro s _ _
    exact ⟨s, [], rfl, rfl, by simp, rfl, by simp⟩
  | cons tick ticks ih =>
    intro s hl hW
    obtain ⟨s1, calls, hstep, hcfg, hhist, hmom⟩ := on_price_update_full s tick.1 tick.2 hl hW
    have hl1 : s1.price_history_.length = s1.config_.strategy_window := by
      rw [hhist, hcfg, ← hl]
      cases hh : s.price_history_ with
      | nil => rw [hh] at hl; simp at hl; omega
      | cons x rest => simp
    obtain ⟨s2, outs, hrun, hcfg2, hhist2, hlen2, hidx⟩ := ih s1 hl1 (by rw [hcfg]; exact hW)
    obtain ⟨x, rest, hh⟩ : ∃ x rest, s.price_history_ = x :: rest := by
      cases hh : s.price_history_ with
      | nil => rw [hh] at hl; simp at hl; omega
      | cons x rest => exact ⟨x, rest, rfl⟩
    have hall : s.price_history_ ++ (tick :: ticks).map Prod.fst
        = x :: (s1.price_history_ ++ ticks.map Prod.fst) := by
      rw [hhist, hh]; simp
    refine ⟨s2, calls :: outs, ?_, by rw [hcfg2, hcfg], ?_, by simp [hlen2], ?_⟩
    · simp only [process, hstep, hrun]
    · rw [hhist2, hall]; simp
    · intro i hi
      cases i with
      | zero =>
        have hlast : (x :: (s1.price_history_ ++ ticks.map Prod.fst)).getD
            (0 + s.config_.strategy_window) 0 = tick.1 := by
          rw [hhist, hh, ← hl, hh, List.tail_cons, Nat.zero_add, List.length_cons,
            List.getD_cons_succ, List.append_assoc, List.getD_append_right _ _ _ _ (le_refl _)]
          simp
        have hfront : (s.price_history_ ++ [tick.1]).getD 1 0
            = (x :: (s1.price_history_ ++ ticks.map Prod.fst)).getD (0 + 1) 0 := by
          rw [hhist, hh]
          cases rest <;> simp
        rw [hall, hlast, ← hfront]
        simp [hmom]
      | succ j =>
        have hj : j < ticks.length := by simpa using hi
        have := hidx j hj
        rw [hall]
        rw [hcfg] at this
        simpa [Nat.add_right_comm j 1] using this

theorem new_history_length (config : Config) (draw : Nat → ℚ) :
    (new config draw).price_history_.length = config.strategy_window := by
  simp [new]

end StrategyComponent

/-- C4, as the claim states it, fails: with window 2, initial price 100 and
draws 0 the constructor leaves the window `[100, 100]`, and the first of the
two prices already produces a momentum event (value 0). -/
theorem window_fill_counterexample :
    ((StrategyComponent.new Config.window2 (fun _ => 0)).process
        (rampTicks 2 (fun _ => 7))).map Prod.snd
      = some [[LogCall.momentum (FVal.fin 0)],
              [LogCall.momentum (FVal.fin (1 / 100)), LogCall.trade "BUY" 101 7]] := by
  norm_num [StrategyComponent.process, StrategyComponent.on_price_update,
    StrategyComponent.new, StrategyComponent.slide, Config.window2, Config.defaults,
    rampTicks, fdiv, FVal.gt, FVal.lt, List.range_succ]

/-- C4, amended: for every window size `W >= 1`, every sample of the
constructor's draws and every timestamps, feeding a newly constructed
component the prices `100, ..., 100 + W - 1` returns, each of the `W` prices
produces exactly one momentum event (the constructor has already filled the
window), the event of the `W`-th price has value `(W - 1) / 100`, and the
window is then the `W` prices fed. -/
theorem window_fill (config : Config) (draw : Nat → ℚ) (ts : Nat → ℚ)
    (hW : 1 ≤ config.strategy_window) :
    ∃ (s1 : StrategyComponent) (outs : List (List LogCall)),
      (StrategyComponent.new config draw).process (rampTicks config.strategy_window ts)
        = some (s1, outs) ∧
      outs.length = config.strategy_window ∧
      (∀ calls ∈ outs, (momentumValues calls).length = 1) ∧
      outs.getLast?.map momentumValues
        = some [FVal.fin (((config.strategy_window : ℚ) - 1) / 100)] ∧
      s1.price_history_ = (List.range config.strategy_window).map (fun i : Nat => (100 : ℚ) + (i : ℚ)) := by
  have hl := StrategyComponent.new_history_length config draw
  have hc : (StrategyComponent.new config draw).config_ = config := rfl
  have hn : (rampTicks config.strategy_window ts).length = config.strategy_window := by
    simp [rampTicks]
  have hp : (rampTicks config.strategy_window ts).map Prod.fst
      = (List.range config.strategy_window).map (fun i : Nat => (100 : ℚ) + (i : ℚ)) := by
    simp [rampTicks, Function.comp_def]
  obtain ⟨s1, outs, hrun, -, hhist, hlen, hidx⟩ :=
    StrategyComponent.process_full (rampTicks config.strategy_window ts)
      (StrategyComponent.new config draw) (by rw [hl, hc]) (by rw [hc]; exact hW)
  rw [hn] at hlen hidx hhist
  rw [hc, hp] at hidx
  rw [hp] at hhist
  refine ⟨s1, outs, hrun, hlen, ?_, ?_, ?_⟩
  · intro calls hmem
    obtain ⟨i, hi, rfl⟩ := List.getElem_of_mem hmem
    have := hidx i (by omega)
    rw [List.getElem?_eq_getElem hi] at this
    simp only [Option.map_some', Option.some.injEq] at this
    rw [this]
    rfl
  · have hlast : outs.getLast? = outs[config.strategy_window - 1]? := by
      rw [List.getLast?_eq_getElem?, hlen]
    rw [hlast, hidx (config.strategy_window - 1) (by omega)]
    have e1 : config.strategy_window - 1 + config.strategy_window
        = (StrategyComponent.new config draw).price_history_.length
            + (config.strategy_window - 1) := by rw [hl]; omega
    have e2 : config.strategy_window - 1 + 1
        = (StrategyComponent.new config draw).price_history_.length + 0 := by rw [hl]; omega
    have hcast : ((config.strategy_window - 1 : ℕ) : ℚ) = (config.strategy_window : ℚ) - 1 := by
      rw [Nat.cast_sub hW]; simp
    rw [e1, e2, List.getD_append_right _ _ _ _ (Nat.le_add_right _ _),
      List.getD_append_right _ _ _ _ (Nat.le_add_right _ _)]
    simp only [Nat.add_sub_cancel_left]
    rw [List.getD_eq_getElem _ _ (by simp; omega), List.getD_eq_getElem _ _ (by simp; omega)]
    simp only [List.getElem_map, List.getElem_range, hcast]
    simp [fdiv]
  · rw [hhist, List.drop_append_of_le_length (by rw [hl])]
    nth_rewrite 1 [← hl]
    rw [List.drop_length, List.nil_append]

/-- Witness of the amended C4 at window 2. -/
theorem window_fill_witness :
    1 ≤ Config.window2.strategy_window ∧
    ∃ (s1 : StrategyComponent) (outs : List (List LogCall)),
      (StrategyComponent.new Config.window2 (fun _ => 0)).process
          (rampTicks Config.window2.strategy_window (fun _ => 7))
        = some (s1, outs) ∧
      outs.length = Config.window2.strategy_window ∧
      (∀ calls ∈ outs, (momentumValues calls).length = 1) ∧
      outs.getLast?.map momentumValues
        = some [FVal.fin (((Config.window2.strategy_window : ℚ) - 1) / 100)] ∧
      s1.price_history_
        = (List.range Config.window2.strategy_window).map (fun i : Nat => (100 : ℚ) + (i : ℚ)) :=
  ⟨by decide, window_fill Config.window2 (fun _ => 0) (fun _ => 7) (by decide)⟩

/-! ## Threshold crossing -/

/-- C10, as the claim states it, fails: the message of a BUY of BTCUSD at
price 100 for the tick stamped 1700000000 starts with that timestamp, written
with 2 decimals, and a colon; it is not the bare
`<action> <symbol> at <price>`. -/
theorem execute_trade_counterexample :
    StrategyComponent.execute_trade fixedFmt (StrategyComponent.mk Config.defaults [] 0)
        "BUY" 100 1700000000
      = "1700000000.00: BUY BTCUSD at 100.00" ∧
    StrategyComponent.execute_trade fixedFmt (StrategyComponent.mk Config.defaults [] 0)
        "BUY" 100 1700000000
      ≠ "BUY" ++ " " ++ Config.defaults.symbol ++ " at " ++ fixedFmt true 2 100 := by
  decide

/-- C10, amended: for every number formatter, action, symbol, price and
timestamp, the message that `execute_trade` hands to the log is the tick's
timestamp with 2 decimals, a colon and a space, the action, one space, the
symbol, the text " at " and the price with 2 decimals, with nothing before or
after; and `Logger::log` writes the clock reading with 6 decimals, a colon and
a space, that message and a line end. -/
theorem execute_trade_message (fmt : Bool → Nat → ℚ → String) (s : StrategyComponent)
    (action : String) (price timestamp now : ℚ) :
    s.execute_trade fmt action price timestamp
      = fmt true 2 timestamp ++ ": " ++ action ++ " " ++ s.config_.symbol ++ " at "
          ++ fmt true 2 price ∧
    Logger.log fmt now (s.execute_trade fmt action price timestamp)
      = fmt true 6 now ++ ": " ++ (fmt true 2 timestamp ++ ": " ++ action ++ " "
          ++ s.config_.symbol ++ " at " ++ fmt true 2 price) ++ "\n" := by
  simp [StrategyComponent.execute_trade, Logger.log, OStringStream.empty,
    OStringStream.setFixed, OStringStream.setprecision, OStringStream.putDouble,
    OStringStream.putString, OStringStream.str, String.append_assoc]

/-- C11: for every window size `W >= 1`, every sample of the constructor's
draws and every sequence of ticks fed one by one to a newly constructed
component, the ticks are all processed; the window then holds at most `W`
prices (exactly `W`); one more update returns, appends the new price at the
back and removes only the front price; and once at least `W` ticks have been
fed the window is exactly the last `W` prices fed, oldest first. -/
theorem window_invariant (config : Config) (draw : Nat → ℚ) (ticks : List (ℚ × ℚ))
    (price timestamp : ℚ) (hW : 1 ≤ config.strategy_window) :
    ∃ (s : StrategyComponent) (outs : List (List LogCall)) (s1 : StrategyComponent)
      (calls : List LogCall),
      (StrategyComponent.new config draw).process ticks = some (s, outs) ∧
      s.on_price_update price timestamp = some (s1, calls) ∧
      s.price_history_.length ≤ config.strategy_window ∧
      s1.price_history_.length ≤ config.strategy_window ∧
      s1.price_history_ = (s.price_history_ ++ [price]).drop 1 ∧
      (config.strategy_window ≤ ticks.length →
        s.price_history_
          = (ticks.map Prod.fst).drop (ticks.length - config.strategy_window)) := by
  have hl := StrategyComponent.new_history_length config draw
  have hc : (StrategyComponent.new config draw).config_ = config := rfl
  obtain ⟨s, outs, hrun, hcfg, hhist, -, -⟩ :=
    StrategyComponent.process_full ticks (StrategyComponent.new config draw)
      (by rw [hl, hc]) (by rw [hc]; exact hW)
  rw [hc] at hcfg
  have hlen : s.price_history_.length = config.strategy_window := by
    rw [hhist, List.length_drop, List.length_append, List.length_map, hl]
    omega
  obtain ⟨s1, calls, hstep, -, hhist1, -⟩ :=
    StrategyComponent.on_price_update_full s price timestamp (by rw [hlen, hcfg])
      (by rw [hcfg]; exact hW)
  obtain ⟨x, rest, hx⟩ : ∃ x rest, s.price_history_ = x :: rest := by
    cases hh : s.price_history_ with
    | nil => rw [hh] at hlen; simp at hlen; omega
    | cons x rest => exact ⟨x, rest, rfl⟩
  refine ⟨s, outs, s1, calls, hrun, hstep, le_of_eq hlen, ?_, ?_, ?_⟩
  · rw [hhist1, hx]
    rw [hx] at hlen
    simp at hlen ⊢
    omega
  · rw [hhist1, hx]
    rfl
  · intro hn
    rw [hhist, List.drop_append_eq_append_drop, hl,
      List.drop_eq_nil_of_le (by rw [hl]; exact hn), List.nil_append]

/-- Witness of C11: window 2, the three prices 7, 8, 9 fed and then 10. -/
theorem window_invariant_witness :
    1 ≤ Config.window2.strategy_window ∧
    ∃ (s : StrategyComponent) (outs : List (List LogCall)) (s1 : StrategyComponent)
      (calls : List LogCall),
      (StrategyComponent.new Config.window2 (fun _ => 0)).process [(7, 1), (8, 2), (9, 3)]
        = some (s, outs) ∧
      s.on_price_update 10 4 = some (s1, calls) ∧
      s.price_history_.length ≤ Config.window2.strategy_window ∧
      s1.price_history_.length ≤ Config.window2.strategy_window ∧
      s1.price_history_ = (s.price_history_ ++ [10]).drop 1 ∧
      (Config.window2.strategy_window ≤ [((7 : ℚ), (1 : ℚ)), (8, 2), (9, 3)].length →
        s.price_history_
          = ([((7 : ℚ), (1 : ℚ)), (8, 2), (9, 3)].map Prod.fst).drop
              ([((7 : ℚ), (1 : ℚ)), (8, 2), (9, 3)].length - Config.window2.strategy_window)) :=
  ⟨by decide, window_invariant Config.window2 (fun _ => 0) [(7, 1), (8, 2), (9, 3)] 10 4
    (by decide)⟩

/-! ## The position follows the emitted actions -/

namespace StrategyComponent

theorem on_price_update_step (s s1 : StrategyComponent) (price timestamp : ℚ)
    (calls : List LogCall) (h : s.on_price_update price timestamp = some (s1, calls)) :
    (tradeActions calls = [] ∧ s1.position_ = s.position_) ∨
    (tradeActions calls = ["BUY"] ∧ s.position_ ≠ 1 ∧ s1.position_ = 1) ∨
    (tradeActions calls = ["SELL"] ∧ s.position_ ≠ -1 ∧ s1.position_ = -1) := by
  unfold on_price_update at h
  simp only at h
  split_ifs at h with hl
  · split at h
    · split_ifs at h with hb hs
      · simp only [Option.some.injEq, Prod.mk.injEq] at h
        obtain ⟨rfl, rfl⟩ := h
        exact Or.inr (Or.inl ⟨rfl, hb.2, rfl⟩)
      · simp only [Option.some.injEq, Prod.mk.injEq] at h
        obtain ⟨rfl, rfl⟩ := h
        exact Or.inr (Or.inr ⟨rfl, hs.2, rfl⟩)
      · simp only [Option.some.injEq, Prod.mk.injEq] at h
        obtain ⟨rfl, rfl⟩ := h
        exact Or.inl ⟨rfl, rfl⟩
    · simp at h
  · simp only [Option.some.injEq, Prod.mk.injEq] at h
    obtain ⟨rfl, rfl⟩ := h
    exact Or.inl ⟨rfl, rfl⟩

theorem positionTracks_step (s s1 : StrategyComponent) (price timestamp : ℚ)
    (calls : List LogCall) (pre : List String)
    (h : s.on_price_update price timestamp = some (s1, calls))
    (hinv : PositionTracks s.position_ pre) (hch : List.Chain' (fun a b => a ≠ b) pre) :
    PositionTracks s1.position_ (pre ++ tradeActions calls) ∧
    List.Chain' (fun a b => a ≠ b) (pre ++ tradeActions calls) := by
  rcases on_price_update_step s s1 price timestamp calls h with
    ⟨ha, hp⟩ | ⟨ha, hne, hp⟩ | ⟨ha, hne, hp⟩
  · rw [ha, List.append_nil, hp]
    exact ⟨hinv, hch⟩
  · rw [ha, hp]
    refine ⟨Or.inr (Or.inl ⟨rfl, List.getLast?_concat pre⟩), ?_⟩
    rw [List.chain'_append]
    refine ⟨hch, List.chain'_singleton _, ?_⟩
    intro x hx y hy
    simp only [List.head?_cons, Option.mem_def, Option.some.injEq] at hy
    subst hy
    rcases hinv with ⟨-, he⟩ | ⟨h1, -⟩ | ⟨-, hl⟩
    · rw [he] at hx; simp at hx
    · exact absurd h1 hne
    · rw [hl] at hx
      simp only [Option.mem_def, Option.some.injEq] at hx
      subst hx
      decide
  · rw [ha, hp]
    refine ⟨Or.inr (Or.inr ⟨rfl, List.getLast?_concat pre⟩), ?_⟩
    rw [List.chain'_append]
    refine ⟨hch, List.chain'_singleton _, ?_⟩
    intro x hx y hy
    simp only [List.head?_cons, Option.mem_def, Option.some.injEq] at hy
    subst hy
    rcases hinv with ⟨-, he⟩ | ⟨-, hl⟩ | ⟨h1, -⟩
    · rw [he] at hx; simp at hx
    · rw [hl] at hx
      simp only [Option.mem_def, Option.some.injEq] at hx
      subst hx
      decide
    · exact absurd h1 hne

theorem positionTracks_process (ticks : List (ℚ × ℚ)) :
    ∀ (s s1 : StrategyComponent) (outs : List (List LogCall)) (pre : List String),
      s.process ticks = some (s1, outs) →
      PositionTracks s.position_ pre → List.Chain' (fun a b => a ≠ b) pre →
      PositionTracks s1.position_ (pre ++ allActions outs) ∧
      List.Chain' (fun a b => a ≠ b) (pre ++ allActions outs) := by
  induction ticks with
  | nil =>
    intro s s1 outs pre h hinv hch
    simp only [process, Option.some.injEq, Prod.mk.injEq] at h
    obtain ⟨rfl, rfl⟩ := h
    simpa [allActions] using ⟨hinv, hch⟩
  | cons tick ticks ih =>
    intro s s1 outs pre h hinv hch
    simp only [process] at h
    split at h
    · simp at h
    · rename_i sa calls hstep
      split at h
      · simp at h
      · rename_i sb rest hrest
        simp only [Option.some.injEq, Prod.mk.injEq] at h
        obtain ⟨rfl, rfl⟩ := h
        obtain ⟨hinv1, hch1⟩ := positionTracks_step s sa tick.1 tick.2 calls pre hstep hinv hch
        have := ih sa sb rest (pre ++ tradeActions calls) hrest hinv1 hch1
        simpa [allActions, List.append_assoc] using this

end StrategyComponent

/-- C12: for every configuration (every threshold), every sample of the
constructor's draws and every sequence of ticks fed to a newly constructed
component, in the state reached the position is 0 (flat) exactly when no trade
action has been emitted, 1 (long) exactly when the last emitted action is BUY
and -1 (short) exactly when it is SELL; no two consecutive emitted actions are
equal; and one more update either keeps the position or moves it flat to long,
flat to short, long to short or short to long, never back to flat.  With a
window of at least one price every such run returns. -/
theorem position_tracks_actions (config : Config) (draw : Nat → ℚ) (ticks : List (ℚ × ℚ)) :
    (∀ (s : StrategyComponent) (outs : List (List LogCall)),
      (StrategyComponent.new config draw).process ticks = some (s, outs) →
      (s.position_ = 0 ↔ allActions outs = []) ∧
      (s.position_ = 1 ↔ (allActions outs).getLast? = some "BUY") ∧
      (s.position_ = -1 ↔ (allActions outs).getLast? = some "SELL") ∧
      List.Chain' (fun a b => a ≠ b) (allActions outs) ∧
      ∀ (price timestamp : ℚ) (s1 : StrategyComponent) (calls : List LogCall),
        s.on_price_update price timestamp = some (s1, calls) →
        (s1.position_ = s.position_ ∧ tradeActions calls = []) ∨
        (s.position_ = 0 ∧ s1.position_ = 1 ∧ tradeActions calls = ["BUY"]) ∨
        (s.position_ = 0 ∧ s1.position_ = -1 ∧ tradeActions calls = ["SELL"]) ∨
        (s.position_ = 1 ∧ s1.position_ = -1 ∧ tradeActions calls = ["SELL"]) ∨
        (s.position_ = -1 ∧ s1.position_ = 1 ∧ tradeActions calls = ["BUY"])) ∧
    (1 ≤ config.strategy_window →
      ∃ (s : StrategyComponent) (outs : List (List LogCall)),
        (StrategyComponent.new config draw).process ticks = some (s, outs)) := by
  constructor
  · intro s outs hrun
    obtain ⟨hinv, hch⟩ := StrategyComponent.positionTracks_process ticks
      (StrategyComponent.new config draw) s outs [] hrun (Or.inl ⟨rfl, rfl⟩) List.chain'_nil
    rw [List.nil_append] at hinv hch
    have hcases : (s.position_ = 0 ∧ allActions outs = []) ∨
        (s.position_ = 1 ∧ (allActions outs).getLast? = some "BUY") ∨
        (s.position_ = -1 ∧ (allActions outs).getLast? = some "SELL") := hinv
    refine ⟨?_, ?_, ?_, hch, ?_⟩
    · rcases hcases with ⟨hp, ha⟩ | ⟨hp, ha⟩ | ⟨hp, ha⟩
      · exact ⟨fun _ => ha, fun _ => hp⟩
      · refine ⟨fun h => ?_, fun h => ?_⟩
        · rw [hp] at h; exact absurd h (by decide)
        · rw [h] at ha; simp at ha
      · refine ⟨fun h => ?_, fun h => ?_⟩
        · rw [hp] at h; exact absurd h (by decide)
        · rw [h] at ha; simp at ha
    · rcases hcases with ⟨hp, ha⟩ | ⟨hp, ha⟩ | ⟨hp, ha⟩
      · refine ⟨fun h => ?_, fun h => ?_⟩
        · rw [hp] at h; exact absurd h (by decide)
        · rw [ha] at h; simp at h
      · exact ⟨fun _ => ha, fun _ => hp⟩
      · refine ⟨fun h => ?_, fun h => ?_⟩
        · rw [hp] at h; exact absurd h (by decide)
        · rw [ha] at h; exact absurd h (by decide)
    · rcases hcases with ⟨hp, ha⟩ | ⟨hp, ha⟩ | ⟨hp, ha⟩
      · refine ⟨fun h => ?_, fun h => ?_⟩
        · rw [hp] at h; exact absurd h (by decide)
        · rw [ha] at h; simp at h
      · refine ⟨fun h => ?_, fun h => ?_⟩
        · rw [hp] at h; exact absurd h (by decide)
        · rw [ha] at h; exact absurd h (by decide)
      · exact ⟨fun _ => ha, fun _ => hp⟩
    · intro price timestamp s1 calls hstep
      rcases StrategyComponent.on_price_update_step s s1 price timestamp calls hstep with
        ⟨ha, hp⟩ | ⟨ha, hne, hp⟩ | ⟨ha, hne, hp⟩
      · exact Or.inl ⟨hp, ha⟩
      · rcases hcases with ⟨h0, -⟩ | ⟨h1, -⟩ | ⟨hm, -⟩
        · exact Or.inr (Or.inl ⟨h0, hp, ha⟩)
        · exact absurd h1 hne
        · exact Or.inr (Or.inr (Or.inr (Or.inr ⟨hm, hp, ha⟩)))
      · rcases hcases with ⟨h0, -⟩ | ⟨h1, -⟩ | ⟨hm, -⟩
        · exact Or.inr (Or.inr (Or.inl ⟨h0, hp, ha⟩))
        · exact Or.inr (Or.inr (Or.inr (Or.inl ⟨h1, hp, ha⟩)))
        · exact absurd hm hne
  · intro hW
    obtain ⟨s, outs, hrun, -⟩ :=
      StrategyComponent.process_full ticks (StrategyComponent.new config draw)
        (StrategyComponent.new_history_length config draw) hW
    exact ⟨s, outs, hrun⟩

/-- Witness of C12: window 2, threshold 1/200, the prices 102, 103, 90: a BUY,
nothing, then a SELL. -/
theorem position_tracks_actions_witness :
    (StrategyComponent.new Config.window2 (fun _ => 0)).process [(102, 1), (103, 2), (90, 3)]
      = some (StrategyComponent.mk Config.window2 [103, 90] (-1),
          [[LogCall.momentum (FVal.fin (1 / 50)), LogCall.trade "BUY" 102 1],
           [LogCall.momentum (FVal.fin (1 / 102))],
           [LogCall.momentum (FVal.fin (-13 / 103)), LogCall.trade "SELL" 90 3]]) ∧
    allActions [[LogCall.momentum (FVal.fin (1 / 50)), LogCall.trade "BUY" 102 1],
           [LogCall.momentum (FVal.fin (1 / 102))],
           [LogCall.momentum (FVal.fin (-13 / 103)), LogCall.trade "SELL" 90 3]]
      = ["BUY", "SELL"] ∧
    List.Chain' (fun a b => a ≠ b)
      (allActions [[LogCall.momentum (FVal.fin (1 / 50)), LogCall.trade "BUY" 102 1],
           [LogCall.momentum (FVal.fin (1 / 102))],
           [LogCall.momentum (FVal.fin (-13 / 103)), LogCall.trade "SELL" 90 3]]) :=
  have hrun : (StrategyComponent.new Config.window2 (fun _ => 0)).process
      [(102, 1), (103, 2), (90, 3)]
      = some (StrategyComponent.mk Config.window2 [103, 90] (-1),
          [[LogCall.momentum (FVal.fin (1 / 50)), LogCall.trade "BUY" 102 1],
           [LogCall.momentum (FVal.fin (1 / 102))],
           [LogCall.momentum (FVal.fin (-13 / 103)), LogCall.trade "SELL" 90 3]]) := by
    norm_num [StrategyComponent.process, StrategyComponent.on_price_update,
      StrategyComponent.new, StrategyComponent.slide, Config.window2, Config.defaults,
      fdiv, FVal.gt, FVal.lt, List.range_succ]
  ⟨hrun, rfl,
    ((position_tracks_actions Config.window2 (fun _ => 0) [(102, 1), (103, 2), (90, 3)]).1
      _ _ hrun).2.2.2.1⟩

/-- C13: for every capacity `Size >= 2`, on a freshly constructed queue the
first pop returns false (empty); after `Size - 1` pushes, which all return
true, the next push returns false (full); a pop then returns true with the
first item pushed, the next push returns true (no longer full), and the push
after that returns false (full once more). -/
theorem empty_full_disambiguation {T : Type} (Size : Nat) (hN : 2 ≤ Size)
    (init : Fin Size → T) (items : List T) (hk : items.length = Size - 1)
    (slot0 slot1 x y z : T) :
    ∃ (first : T) (q1 : LockFreeQueue T Size),
      items.head? = some first ∧
      (LockFreeQueue.fresh init).run
          (Op.pop slot0 :: (items.map Op.push
            ++ [Op.push x, Op.pop slot1, Op.push y, Op.push z]))
        = some (Res.popped false slot0 :: (List.replicate (Size - 1) (Res.pushed true)
            ++ [Res.pushed false, Res.popped true first, Res.pushed true, Res.pushed false]),
          q1) := by
  obtain ⟨first, rest, rfl⟩ : ∃ first rest, items = first :: rest := by
    cases items with
    | nil => simp at hk; omega
    | cons a l => exact ⟨a, l, rfl⟩
  obtain ⟨q1, hr, -, -⟩ :=
    LockFreeQueue.run_refines
      (Op.pop slot0 :: ((first :: rest).map Op.push
        ++ [Op.push x, Op.pop slot1, Op.push y, Op.push z]))
      (LockFreeQueue.fresh init) (LockFreeQueue.fresh_inBounds init (by omega))
  refine ⟨first, q1, rfl, ?_⟩
  rw [hr, LockFreeQueue.fresh_contents]
  have hpop : fifoStep (Size - 1) ([] : List T) (Op.pop slot0)
      = (Res.popped false slot0, []) := rfl
  have hlen : (first :: rest).length = Size - 1 := hk
  have hrest : rest.length < Size - 1 := by simp at hlen; omega
  have hfull : ¬ ((first :: rest).length < Size - 1) := by omega
  have hfull2 : ¬ ((rest ++ [y]).length < Size - 1) := by simp at hlen ⊢; omega
  have h1 : min (Size - 1 - ([] : List T).length) (first :: rest).length = Size - 1 := by
    simp only [List.length_nil]; omega
  have h2 : (first :: rest).length - (Size - 1 - ([] : List T).length) = 0 := by
    simp only [List.length_nil]; omega
  have h3 : List.take (Size - 1 - ([] : List T).length) (first :: rest) = first :: rest :=
    List.take_of_length_le (by simp only [List.length_nil]; omega)
  rw [fifoRun, hpop]
  simp only [fifoRun_append, fifoRun_pushes, h1, h2, h3, List.replicate_zero, List.append_nil,
    List.nil_append]
  simp only [fifoRun, fifoStep, fifoPush, fifoPop, hfull, hrest, hfull2, if_true, if_false]

/-- Witness of C13 at capacity 3. -/
theorem empty_full_disambiguation_witness :
    (2 ≤ 3 ∧ [5, 6].length = 3 - 1) ∧
    ∃ (first : Nat) (q1 : LockFreeQueue Nat 3),
      [5, 6].head? = some first ∧
      (LockFreeQueue.fresh (fun _ => 0)).run
          (Op.pop 0 :: ([5, 6].map Op.push ++ [Op.push 7, Op.pop 0, Op.push 8, Op.push 9]))
        = some (Res.popped false 0 :: (List.replicate (3 - 1) (Res.pushed true)
            ++ [Res.pushed false, Res.popped true first, Res.pushed true, Res.pushed false]),
          q1) :=
  ⟨by decide, empty_full_disambiguation 3 (by decide) (fun _ => 0) [5, 6] rfl 0 0 7 8 9⟩

/-! ## Frame of push and pop, and the cursors -/

namespace LockFreeQueue

variable {T : Type} {Size : Nat}

theorem push_isSome (q : LockFreeQueue T Size) (hw : q.InBounds) (item : T) :
    (q.push item).isSome = true := by
  by_cases hf : (q.tail_ + 1) % Size = q.head_
  · rw [(push_full q hw item hf).1]; rfl
  · obtain ⟨q1, hp, -⟩ := push_room q hw item hf
    rw [hp]; rfl

theorem pop_isSome (q : LockFreeQueue T Size) (hw : q.InBounds) (slot : T) :
    (q.pop slot).isSome = true := by
  by_cases he : q.head_ = q.tail_
  · rw [pop_empty q slot he]; rfl
  · obtain ⟨q1, hp, -⟩ := pop_item q hw slot he
    rw [hp]; rfl

end LockFreeQueue

/-- C16: for every queue state and item, whenever push returns (true or
false) it leaves `head_` unchanged and changes no slot other than the one at
the old tail, and whenever pop returns it leaves `tail_` and every slot
unchanged; both calls do return when the cursors are below `Size`. -/
theorem frame_effect {T : Type} {Size : Nat} (q : LockFreeQueue T Size) (item slot : T) :
    (∀ (ok : Bool) (q1 : LockFreeQueue T Size), q.push item = some (ok, q1) →
      q1.head_ = q.head_ ∧ ∀ i : Fin Size, i.val ≠ q.tail_ → q1.buffer_ i = q.buffer_ i) ∧
    (∀ (ok : Bool) (out : T) (q1 : LockFreeQueue T Size), q.pop slot = some (ok, out, q1) →
      q1.tail_ = q.tail_ ∧ q1.buffer_ = q.buffer_) ∧
    (q.head_ < Size ∧ q.tail_ < Size →
      (q.push item).isSome = true ∧ (q.pop slot).isSome = true) := by
  refine ⟨?_, ?_, fun hw => ⟨LockFreeQueue.push_isSome q hw item,
    LockFreeQueue.pop_isSome q hw slot⟩⟩
  · intro ok q1 h
    unfold LockFreeQueue.push at h
    simp only at h
    split_ifs at h with h0 hf ht
    · simp only [Option.some.injEq, Prod.mk.injEq] at h
      obtain ⟨-, rfl⟩ := h
      exact ⟨rfl, fun _ _ => rfl⟩
    · simp only [Option.some.injEq, Prod.mk.injEq] at h
      obtain ⟨-, rfl⟩ := h
      refine ⟨rfl, fun i hi => ?_⟩
      exact Function.update_noteq (fun hEq => hi (congrArg Fin.val hEq)) _ _
  · intro ok out q1 h
    unfold LockFreeQueue.pop at h
    simp only at h
    split_ifs at h with he hh
    · simp only [Option.some.injEq, Prod.mk.injEq] at h
      obtain ⟨-, -, rfl⟩ := h
      exact ⟨rfl, rfl⟩
    · simp only [Option.some.injEq, Prod.mk.injEq] at h
      obtain ⟨-, -, rfl⟩ := h
      exact ⟨rfl, rfl⟩

/-- Witness of C16: an accepted push on a queue of 3 slots leaves head and
slot 0 as they were, and a pop leaves tail and the buffer as they were. -/
theorem frame_effect_witness :
    (∃ q1 : LockFreeQueue Nat 3,
      (LockFreeQueue.mk (fun i : Fin 3 => 10 + i.val) 1 2).push 8 = some (true, q1) ∧
      q1.head_ = 1 ∧ q1.buffer_ 0 = 10) ∧
    (∃ q1 : LockFreeQueue Nat 3,
      (LockFreeQueue.mk (fun i : Fin 3 => 10 + i.val) 1 2).pop 0 = some (true, 11, q1) ∧
      q1.tail_ = 2 ∧ q1.buffer_ = fun i : Fin 3 => 10 + i.val) :=
  have hpush : (LockFreeQueue.mk (fun i : Fin 3 => 10 + i.val) 1 2).push 8
      = some (true, LockFreeQueue.mk
          (Function.update (fun i : Fin 3 => 10 + i.val) ⟨2, by decide⟩ 8) 1 0) := rfl
  have hpop : (LockFreeQueue.mk (fun i : Fin 3 => 10 + i.val) 1 2).pop 0
      = some (true, 11, LockFreeQueue.mk (fun i : Fin 3 => 10 + i.val) 2 2) := rfl
  ⟨⟨_, hpush,
      ((frame_effect (LockFreeQueue.mk (fun i : Fin 3 => 10 + i.val) 1 2) 8 0).1
        true _ hpush).1,
      ((frame_effect (LockFreeQueue.mk (fun i : Fin 3 => 10 + i.val) 1 2) 8 0).1
        true _ hpush).2 0 (by decide)⟩,
   ⟨_, hpop,
      ((frame_effect (LockFreeQueue.mk (fun i : Fin 3 => 10 + i.val) 1 2) 8 0).2.1
        true 11 _ hpop).1,
      ((frame_effect (LockFreeQueue.mk (fun i : Fin 3 => 10 + i.val) 1 2) 8 0).2.1
        true 11 _ hpop).2⟩⟩

/-- C17, as the claim states it, fails: on a fresh queue of 3 slots, after two
pushes and a pop the tail is 2, and the accepted push that follows wraps it
around to 0, a smaller value; the head wraps the same way after three pops. -/
theorem cursor_monotone_counterexample :
    ((LockFreeQueue.fresh (fun _ : Fin 3 => 0)).run
        [Op.push 5, Op.push 6, Op.pop 0]).map (fun r => r.2.tail_) = some 2 ∧
    ((LockFreeQueue.fresh (fun _ : Fin 3 => 0)).run
        [Op.push 5, Op.push 6, Op.pop 0, Op.push 7]).map (fun r => (r.1.getLast?, r.2.tail_))
      = some (some (Res.pushed true), 0) ∧
    ((LockFreeQueue.fresh (fun _ : Fin 3 => 0)).run
        [Op.push 5, Op.push 6, Op.pop 0, Op.push 7, Op.pop 0]).map (fun r => r.2.head_)
      = some 2 ∧
    ((LockFreeQueue.fresh (fun _ : Fin 3 => 0)).run
        [Op.push 5, Op.push 6, Op.pop 0, Op.push 7, Op.pop 0, Op.pop 0]).map
          (fun r => (r.1.getLast?, r.2.head_))
      = some (some (Res.popped true 7), 0) := by
  decide

/-- C17, amended: for every queue state with both cursors below `Size` and
every push or pop call, the call returns; push leaves the head as it was and
leaves the tail as it was or sets it to `(tail_ + 1) % Size`; pop leaves the
tail as it was and leaves the head as it was or sets it to
`(head_ + 1) % Size`.  So a cursor is greater than or equal to its value
before the call unless it stood on the last slot, `Size - 1`, and the call
moved it, in which case it wraps around to 0. -/
theorem cursor_advance {T : Type} {Size : Nat} (q : LockFreeQueue T Size) (item slot : T)
    (hh : q.head_ < Size) (ht : q.tail_ < Size) :
    (∃ (ok : Bool) (q1 : LockFreeQueue T Size), q.push item = some (ok, q1) ∧
      q1.head_ = q.head_ ∧
      (q1.tail_ = q.tail_ ∨ q1.tail_ = (q.tail_ + 1) % Size) ∧
      (q.tail_ ≤ q1.tail_ ∨ (q.tail_ = Size - 1 ∧ q1.tail_ = 0))) ∧
    (∃ (ok : Bool) (out : T) (q1 : LockFreeQueue T Size), q.pop slot = some (ok, out, q1) ∧
      q1.tail_ = q.tail_ ∧
      (q1.head_ = q.head_ ∨ q1.head_ = (q.head_ + 1) % Size) ∧
      (q.head_ ≤ q1.head_ ∨ (q.head_ = Size - 1 ∧ q1.head_ = 0))) := by
  constructor
  · by_cases hf : (q.tail_ + 1) % Size = q.head_
    · exact ⟨false, q, (LockFreeQueue.push_full q ⟨hh, ht⟩ item hf).1, rfl, Or.inl rfl,
        Or.inl (le_refl _)⟩
    · obtain ⟨q1, hp, -, -, -, hhd, htl, -⟩ := LockFreeQueue.push_room q ⟨hh, ht⟩ item hf
      refine ⟨true, q1, hp, hhd, Or.inr htl, ?_⟩
      rw [htl, cursor_succ_mod _ _ ht]
      split_ifs with hc
      · exact Or.inr ⟨by omega, rfl⟩
      · exact Or.inl (by omega)
  · by_cases he : q.head_ = q.tail_
    · exact ⟨false, slot, q, LockFreeQueue.pop_empty q slot he, rfl, Or.inl rfl,
        Or.inl (le_refl _)⟩
    · obtain ⟨q1, hp, -, -, hhd, htl, -⟩ := LockFreeQueue.pop_item q ⟨hh, ht⟩ slot he
      refine ⟨true, _, q1, hp, htl, Or.inr hhd, ?_⟩
      rw [hhd, cursor_succ_mod _ _ hh]
      split_ifs with hc
      · exact Or.inr ⟨by omega, rfl⟩
      · exact Or.inl (by omega)

/-- Witness of the amended C17: a queue of 3 slots with head 1 and tail 2, where
the push wraps the tail around. -/
theorem cursor_advance_witness :
    (1 < 3 ∧ 2 < 3) ∧
    (∃ (ok : Bool) (q1 : LockFreeQueue Nat 3),
      (LockFreeQueue.mk (fun _ => 0) 1 2).push 8 = some (ok, q1) ∧
      q1.head_ = 1 ∧
      (q1.tail_ = 2 ∨ q1.tail_ = (2 + 1) % 3) ∧
      (2 ≤ q1.tail_ ∨ (2 = 3 - 1 ∧ q1.tail_ = 0))) ∧
    (∃ (ok : Bool) (out : Nat) (q1 : LockFreeQueue Nat 3),
      (LockFreeQueue.mk (fun _ => 0) 1 2).pop 4 = some (ok, out, q1) ∧
      q1.tail_ = 2 ∧
      (q1.head_ = 1 ∨ q1.head_ = (1 + 1) % 3) ∧
      (1 ≤ q1.head_ ∨ (1 = 3 - 1 ∧ q1.head_ = 0))) :=
  ⟨by decide, cursor_advance (LockFreeQueue.mk (fun _ => 0) 1 2) 8 4 (by decide) (by decide)⟩

/-- C19: for every capacity `Size >= 1` and every sequence of push and pop
calls on a freshly constructed queue, every call returns, which it does only
when its access to `buffer_` is inside the array; in the state reached both
cursors are below `Size`, and so the next push and the next pop return too. -/
theorem cursors_in_bounds {T : Type} (Size : Nat) (hN : 1 ≤ Size) (init : Fin Size → T)
    (ops : List (Op T)) :
    ∃ (rs : List (Res T)) (q1 : LockFreeQueue T Size),
      (LockFreeQueue.fresh init).run ops = some (rs, q1) ∧
      q1.head_ < Size ∧ q1.tail_ < Size ∧
      ∀ item : T, (q1.push item).isSome = true ∧ (q1.pop item).isSome = true := by
  obtain ⟨q1, hr, hw1, -⟩ :=
    LockFreeQueue.run_refines ops (LockFreeQueue.fresh init)
      (LockFreeQueue.fresh_inBounds init (by omega))
  exact ⟨_, q1, hr, hw1.1, hw1.2, fun item =>
    ⟨LockFreeQueue.push_isSome q1 hw1 item, LockFreeQueue.pop_isSome q1 hw1 item⟩⟩

/-- Witness of C19 at capacity 3, with a run that wraps the tail around. -/
theorem cursors_in_bounds_witness :
    1 ≤ 3 ∧
    ∃ (rs : List (Res Nat)) (q1 : LockFreeQueue Nat 3),
      (LockFreeQueue.fresh (fun _ => 0)).run [Op.push 5, Op.push 6, Op.pop 0, Op.push 7]
        = some (rs, q1) ∧
      q1.head_ < 3 ∧ q1.tail_ < 3 ∧
      ∀ item : Nat, (q1.push item).isSome = true ∧ (q1.pop item).isSome = true :=
  ⟨by decide, cursors_in_bounds 3 (by decide) (fun _ => 0)
    [Op.push 5, Op.push 6, Op.pop 0, Op.push 7]⟩

/-! ## The zero denominator -/

/-- C15: `on_price_update` does not test the denominator.  Whenever the
window holds exactly `strategy_window` prices after the update, with oldest
price `oldest` and newest price `newest`, the call returns with the window
updated, logs the quotient `(newest - oldest) / oldest` once and takes the
trade decision from its comparison with the threshold; when `oldest` is 0 the
logged value is not a finite number.  The case is reachable: a newly
constructed component with window 2 fed the prices 0, 0 and 5 logs a
not-a-number and then an infinity, on which it emits BUY. -/
theorem zero_denominator_unguarded :
    (∀ (s : StrategyComponent) (price timestamp oldest newest : ℚ),
      (StrategyComponent.slide s.config_.strategy_window s.price_history_ price).length
        = s.config_.strategy_window →
      (StrategyComponent.slide s.config_.strategy_window s.price_history_ price).head?
        = some oldest →
      (StrategyComponent.slide s.config_.strategy_window s.price_history_ price).getLast?
        = some newest →
      ∃ (s1 : StrategyComponent) (calls : List LogCall),
        s.on_price_update price timestamp = some (s1, calls) ∧
        s1.price_history_
          = StrategyComponent.slide s.config_.strategy_window s.price_history_ price ∧
        momentumValues calls = [fdiv (newest - oldest) oldest] ∧
        (oldest = 0 → ∀ q : ℚ, fdiv (newest - oldest) oldest ≠ FVal.fin q) ∧
        tradeActions calls
          = (if (fdiv (newest - oldest) oldest).gt s.config_.strategy_threshold = true
                ∧ s.position_ ≠ 1 then ["BUY"]
             else if (fdiv (newest - oldest) oldest).lt (-s.config_.strategy_threshold) = true
                ∧ s.position_ ≠ -1 then ["SELL"]
             else [])) ∧
    (StrategyComponent.new Config.window2 (fun _ => 0)).process [(0, 1), (0, 2), (5, 3)]
      = some (StrategyComponent.mk Config.window2 [0, 5] 1,
          [[LogCall.momentum (FVal.fin (-1)), LogCall.trade "SELL" 0 1],
           [LogCall.momentum FVal.nan],
           [LogCall.momentum FVal.posInf, LogCall.trade "BUY" 5 3]]) := by
  constructor
  · intro s price timestamp oldest newest hfull hold hnew
    have hm : window_momentum s.config_.strategy_window
        (StrategyComponent.slide s.config_.strategy_window s.price_history_ price)
        = some (fdiv (newest - oldest) oldest) := by
      simp [window_momentum, hfull, hold, hnew]
    have hnf : oldest = 0 → ∀ q : ℚ, fdiv (newest - oldest) oldest ≠ FVal.fin q := by
      intro h0 q
      subst h0
      unfold fdiv
      simp only [if_true]
      split_ifs <;> simp
    by_cases hb : (fdiv (newest - oldest) oldest).gt s.config_.strategy_threshold = true
        ∧ s.position_ ≠ 1
    · refine ⟨_, _, StrategyComponent.on_price_update_buy s price timestamp _ hm hb.1 hb.2,
        rfl, rfl, hnf, ?_⟩
      rw [if_pos hb]; rfl
    · by_cases hs : (fdiv (newest - oldest) oldest).lt (-s.config_.strategy_threshold) = true
          ∧ s.position_ ≠ -1
      · refine ⟨_, _, StrategyComponent.on_price_update_sell s price timestamp _ hm hb hs.1
          hs.2, rfl, rfl, hnf, ?_⟩
        rw [if_neg hb, if_pos hs]; rfl
      · refine ⟨_, _, StrategyComponent.on_price_update_hold s price timestamp _ hm hb hs,
          rfl, rfl, hnf, ?_⟩
        rw [if_neg hb, if_neg hs]; rfl
  · norm_num [StrategyComponent.process, StrategyComponent.on_price_update,
      StrategyComponent.new, StrategyComponent.slide, Config.window2, Config.defaults,
      fdiv, FVal.gt, FVal.lt, List.range_succ]

/-- Witness of C15: the window `[0, 0]` of a short position receives the price
5; the call logs an infinity and emits BUY. -/
theorem zero_denominator_unguarded_witness :
    ((StrategyComponent.slide 2 [0, 0] 5).length = 2 ∧
      (StrategyComponent.slide 2 [0, 0] 5).head? = some 0 ∧
      (StrategyComponent.slide 2 [0, 0] 5).getLast? = some 5) ∧
    ∃ (s1 : StrategyComponent) (calls : List LogCall),
      (StrategyComponent.mk Config.window2 [0, 0] (-1)).on_price_update 5 3
        = some (s1, calls) ∧
      s1.price_history_ = StrategyComponent.slide 2 [0, 0] 5 ∧
      momentumValues calls = [fdiv (5 - 0) 0] ∧
      ((0 : ℚ) = 0 → ∀ q : ℚ, fdiv (5 - 0) 0 ≠ FVal.fin q) ∧
      tradeActions calls
        = (if (fdiv (5 - 0) 0).gt Config.window2.strategy_threshold = true
              ∧ (-1 : Int) ≠ 1 then ["BUY"]
           else if (fdiv (5 - 0) 0).lt (-Config.window2.strategy_threshold) = true
              ∧ (-1 : Int) ≠ -1 then ["SELL"]
           else []) :=
  ⟨by norm_num [StrategyComponent.slide],
   zero_denominator_unguarded.1 (StrategyComponent.mk Config.window2 [0, 0] (-1)) 5 3 0 5
     (by norm_num [StrategyComponent.slide, Config.window2])
     (by norm_num [StrategyComponent.slide, Config.window2])
     (by norm_num [StrategyComponent.slide, Config.window2])⟩

/-! ## The text handed to the conversions -/

theorem substr_append (opt value : String) :
    substr (opt ++ value) opt.data.length = some value := by
  simp [substr]

theorem parse_args_single (stod : String → Option ℚ) (stoul : String → Option Nat)
    (c : Config) (arg : String) :
    Config.parse_args stod stoul c [arg] = Config.parse_arg stod stoul c arg := by
  simp only [Config.parse_args]
  cases Config.parse_arg stod stoul c arg <;> rfl

/-- The text that `parse_args` stores or hands to the numeric conversion for
an argument `<option><value>`, for every value and every behaviour of the
conversions: it is `<value>` for `--symbol=`, `--initial-price=`, `--window=`,
`--threshold=` and `--log-file=`, each of which changes its own field only;
for `--update-interval=`, whose text has 18 characters while line 36 cuts at
17, it is `=<value>`, the `=` included, so `update_interval_ms` receives
whatever `stod` gives for that text and the call throws when `stod` does. -/
theorem parse_args_option_text (stod : String → Option ℚ) (stoul : String → Option Nat)
    (c : Config) (value : String) :
    Config.parse_args stod stoul c ["--symbol=" ++ value]
      = some { c with symbol := value } ∧
    Config.parse_args stod stoul c ["--initial-price=" ++ value]
      = (stod value).map (fun x => { c with initial_price := x }) ∧
    Config.parse_args stod stoul c ["--update-interval=" ++ value]
      = (stod ("=" ++ value)).map (fun x => { c with update_interval_ms := x }) ∧
    Config.parse_args stod stoul c ["--window=" ++ value]
      = (stoul value).map (fun n => { c with strategy_window := n }) ∧
    Config.parse_args stod stoul c ["--threshold=" ++ value]
      = (stod value).map (fun x => { c with strategy_threshold := x }) ∧
    Config.parse_args stod stoul c ["--log-file=" ++ value]
      = some { c with log_file := value } := by
  have h1 : ("--symbol=" ++ value).data
      = '-' :: '-' :: 's' :: 'y' :: 'm' :: 'b' :: 'o' :: 'l' :: '=' :: value.data := rfl
  have h2 : ("--initial-price=" ++ value).data
      = '-' :: '-' :: 'i' :: 'n' :: 'i' :: 't' :: 'i' :: 'a' :: 'l' :: '-' :: 'p' :: 'r' :: 'i'
        :: 'c' :: 'e' :: '=' :: value.data := rfl
  have h3 : ("--update-interval=" ++ value).data
      = '-' :: '-' :: 'u' :: 'p' :: 'd' :: 'a' :: 't' :: 'e' :: '-' :: 'i' :: 'n' :: 't' :: 'e'
        :: 'r' :: 'v' :: 'a' :: 'l' :: '=' :: value.data := rfl
  have h4 : ("--window=" ++ value).data
      = '-' :: '-' :: 'w' :: 'i' :: 'n' :: 'd' :: 'o' :: 'w' :: '=' :: value.data := rfl
  have h5 : ("--threshold=" ++ value).data
      = '-' :: '-' :: 't' :: 'h' :: 'r' :: 'e' :: 's' :: 'h' :: 'o' :: 'l' :: 'd' :: '='
        :: value.data := rfl
  have h6 : ("--log-file=" ++ value).data
      = '-' :: '-' :: 'l' :: 'o' :: 'g' :: '-' :: 'f' :: 'i' :: 'l' :: 'e' :: '='
        :: value.data := rfl
  have hv : String.mk value.data = value := rfl
  have he : String.mk ('=' :: value.data) = "=" ++ value := rfl
  simp only [parse_args_single]
  refine ⟨?_, ?_, ?_, ?_, ?_, ?_⟩
  · simp [Config.parse_arg, findAtStart, substr, h1, List.isPrefixOf, hv]
  · simp [Config.parse_arg, findAtStart, substr, h2, List.isPrefixOf, hv]
  · simp [Config.parse_arg, findAtStart, substr, h3, List.isPrefixOf, he]
  · simp [Config.parse_arg, findAtStart, substr, h4, List.isPrefixOf, hv]
  · simp [Config.parse_arg, findAtStart, substr, h5, List.isPrefixOf, hv]
  · simp [Config.parse_arg, findAtStart, substr, h6, List.isPrefixOf, hv]

/-- C18, at the input `--update-interval=2.5`: the text that `parse_args`
hands to `stod` is `=2.5`, not the value `2.5` with the whole option text
removed, so `update_interval_ms` is set only if `stod` accepts that text;
for `--initial-price=2.5` the text handed over is `2.5`. -/
theorem parse_args_update_interval_text (stod : String → Option ℚ)
    (stoul : String → Option Nat) :
    Config.parse_args stod stoul Config.defaults ["--update-interval=2.5"]
      = (stod "=2.5").map (fun x => { Config.defaults with update_interval_ms := x }) ∧
    Config.parse_args stod stoul Config.defaults ["--initial-price=2.5"]
      = (stod "2.5").map (fun x => { Config.defaults with initial_price := x }) := by
  simp only [parse_args_single]
  exact ⟨rfl, rfl⟩

/-! ## The trade decision in double arithmetic -/

theorem on_price_update_fp_exact (s : StrategyComponent) (price timestamp : ℚ) :
    s.on_price_update_fp (fun back front => fdiv (back - front) front) price timestamp
      = s.on_price_update price timestamp :=
  rfl

/-- C5, as the claim states it, fails: the window `[124.2, 136.62]` (the
doubles nearest to these), threshold 0.1 and a flat position satisfy the
claim's conditions, and the exact quotient is above the threshold, so the
claim promises a BUY; but line 193 computes in doubles, the rounded quotient
is the threshold itself, the test `momentum > threshold` is false and the
update emits no trade action and leaves the position flat. -/
theorem trade_decision_counterexample :
    (0 : ℚ) ≤ Config.tenth.strategy_threshold ∧
    StrategyComponent.slide 2 [100, 8739798026865869 / 70368744177664]
        (1201722228694057 / 8796093022208)
      = [8739798026865869 / 70368744177664, 1201722228694057 / 8796093022208] ∧
    (8739798026865869 / 70368744177664 : ℚ) ≠ 0 ∧
    Config.tenth.strategy_threshold
      < ((1201722228694057 / 8796093022208 : ℚ) - 8739798026865869 / 70368744177664)
          / (8739798026865869 / 70368744177664) ∧
    (StrategyComponent.mk Config.tenth [100, 8739798026865869 / 70368744177664] 0).position_
      ≠ 1 ∧
    (StrategyComponent.mk Config.tenth
        [100, 8739798026865869 / 70368744177664] 0).on_price_update_fp doubleMomentum
        (1201722228694057 / 8796093022208) 7
      = some (StrategyComponent.mk Config.tenth
          [8739798026865869 / 70368744177664, 1201722228694057 / 8796093022208] 0,
        [LogCall.momentum (FVal.fin (3602879701896397 / 36028797018963968))]) := by
  decide!

/-- C5, amended: for every arithmetic of line 193 (that of doubles among
them), every threshold `T >= 0`, every position and every call of
`on_price_update` after which the window holds exactly `strategy_window`
prices with oldest price `oldest != 0` and newest price `newest`, the call
returns and logs once the momentum `m` that line 193 computes for
`(newest - oldest) / oldest`; if `m > T` and the position is not 1 (long),
exactly one trade action, BUY, is emitted and the position becomes 1; if
`m < -T` and the position is not -1 (short), exactly one trade action, SELL,
is emitted and the position becomes -1; in every other case no trade action is
emitted and the position is unchanged. -/
theorem trade_decision (quot : ℚ → ℚ → FVal) (s : StrategyComponent)
    (price timestamp oldest newest : ℚ)
    (hT : 0 ≤ s.config_.strategy_threshold)
    (hfull : (StrategyComponent.slide s.config_.strategy_window s.price_history_ price).length
      = s.config_.strategy_window)
    (hold : (StrategyComponent.slide s.config_.strategy_window s.price_history_ price).head?
      = some oldest)
    (hnew : (StrategyComponent.slide s.config_.strategy_window s.price_history_ price).getLast?
      = some newest)
    (_h0 : oldest ≠ 0) :
    ∃ (s1 : StrategyComponent) (calls : List LogCall),
      s.on_price_update_fp quot price timestamp = some (s1, calls) ∧
      s1.price_history_
        = StrategyComponent.slide s.config_.strategy_window s.price_history_ price ∧
      momentumValues calls = [quot newest oldest] ∧
      ((quot newest oldest).gt s.config_.strategy_threshold = true ∧ s.position_ ≠ 1 →
        tradeActions calls = ["BUY"] ∧ s1.position_ = 1) ∧
      ((quot newest oldest).lt (-s.config_.strategy_threshold) = true ∧ s.position_ ≠ -1 →
        tradeActions calls = ["SELL"] ∧ s1.position_ = -1) ∧
      (¬ ((quot newest oldest).gt s.config_.strategy_threshold = true ∧ s.position_ ≠ 1) ∧
       ¬ ((quot newest oldest).lt (-s.config_.strategy_threshold) = true ∧ s.position_ ≠ -1) →
        tradeActions calls = [] ∧ s1.position_ = s.position_) := by
  by_cases hb : (quot newest oldest).gt s.config_.strategy_threshold = true ∧ s.position_ ≠ 1
  · refine ⟨StrategyComponent.mk s.config_
        (StrategyComponent.slide s.config_.strategy_window s.price_history_ price) 1,
      [LogCall.momentum (quot newest oldest), LogCall.trade "BUY" price timestamp],
      ?_, rfl, rfl, fun _ => ⟨rfl, rfl⟩, ?_, fun h => absurd hb h.1⟩
    · simp only [StrategyComponent.on_price_update_fp, hfull, hold, hnew, if_true]
      rw [if_pos hb]
    · intro hs
      exact absurd hs.1 (StrategyComponent.gt_not_lt_neg _ _ hT hb.1)
  · by_cases hs : (quot newest oldest).lt (-s.config_.strategy_threshold) = true
        ∧ s.position_ ≠ -1
    · refine ⟨StrategyComponent.mk s.config_
          (StrategyComponent.slide s.config_.strategy_window s.price_history_ price) (-1),
        [LogCall.momentum (quot newest oldest), LogCall.trade "SELL" price timestamp],
        ?_, rfl, rfl, fun h => absurd h hb, fun _ => ⟨rfl, rfl⟩, fun h => absurd hs h.2⟩
      simp only [StrategyComponent.on_price_update_fp, hfull, hold, hnew, if_true]
      rw [if_neg hb, if_pos hs]
    · refine ⟨StrategyComponent.mk s.config_
          (StrategyComponent.slide s.config_.strategy_window s.price_history_ price)
          s.position_,
        [LogCall.momentum (quot newest oldest)],
        ?_, rfl, rfl, fun h => absurd h hb, fun h => absurd h hs, fun _ => ⟨rfl, rfl⟩⟩
      simp only [StrategyComponent.on_price_update_fp, hfull, hold, hnew, if_true]
      rw [if_neg hb, if_neg hs]

/-- Witness of the amended C5 in double arithmetic: the window `[100, 102]`,
threshold 1/200 and a flat position; the momentum computed is the double
nearest to 0.02 and a BUY is emitted. -/
theorem trade_decision_witness :
    ((0 : ℚ) ≤ Config.window2.strategy_threshold ∧
      (StrategyComponent.slide 2 [100, 100] 102).length = 2 ∧
      (StrategyComponent.slide 2 [100, 100] 102).head? = some 100 ∧
      (StrategyComponent.slide 2 [100, 100] 102).getLast? = some 102 ∧
      (100 : ℚ) ≠ 0 ∧
      doubleMomentum 102 100 = FVal.fin (5764607523034235 / 288230376151711744) ∧
      (doubleMomentum 102 100).gt Config.window2.strategy_threshold = true) ∧
    ∃ (s1 : StrategyComponent) (calls : List LogCall),
      (StrategyComponent.mk Config.window2 [100, 100] 0).on_price_update_fp doubleMomentum
          102 7 = some (s1, calls) ∧
      s1.price_history_ = StrategyComponent.slide 2 [100, 100] 102 ∧
      momentumValues calls = [doubleMomentum 102 100] ∧
      ((doubleMomentum 102 100).gt Config.window2.strategy_threshold = true ∧ (0 : Int) ≠ 1 →
        tradeActions calls = ["BUY"] ∧ s1.position_ = 1) ∧
      ((doubleMomentum 102 100).lt (-Config.window2.strategy_threshold) = true
          ∧ (0 : Int) ≠ -1 →
        tradeActions calls = ["SELL"] ∧ s1.position_ = -1) ∧
      (¬ ((doubleMomentum 102 100).gt Config.window2.strategy_threshold = true
            ∧ (0 : Int) ≠ 1) ∧
       ¬ ((doubleMomentum 102 100).lt (-Config.window2.strategy_threshold) = true
            ∧ (0 : Int) ≠ -1) →
        tradeActions calls = [] ∧ s1.position_ = 0) :=
  ⟨by decide!,
   trade_decision doubleMomentum (StrategyComponent.mk Config.window2 [100, 100] 0) 102 7
     100 102 (by decide!) (by decide!) (by decide!) (by decide!) (by decide!)⟩

end HFT
